import Mathlib

/-!
Verification of the Newick parsing and ASCII tree rendering core of the
phylogeny web application (frontend `page.tsx`: `parseNewick`,
`renderTreeAscii`), against its natural-language specification.

Embedding conventions:
* JS strings are `List Char`; only the ASCII whitespace characters are
  modelled for `trim` / `parseFloat` whitespace skipping.
* JS numbers are modelled exactly: every number produced by this code is a
  decimal rational `m / 10^e`, represented by the structure `Dec`
  (mantissa and decimal exponent), wrapped in `JSNum` which also has the
  JavaScript non-finite values `NaN`, `Infinity`, `-Infinity`.
* The recursive-descent parser is written with an explicit fuel argument
  (`parseNodeF`); `parseNode` supplies fuel `length + 1`, which is proved
  sufficient (the fuel-exhaustion branch is unreachable, see the
  termination theorem for claim C9).
-/

/-- ASCII whitespace, the fragment of the JavaScript whitespace set used by
`String.prototype.trim` and `parseFloat` that is relevant here. -/
def isWs (c : Char) : Bool :=
  c = ' ' || c = '\t' || c = '\n' || c = '\r' || c = '\x0b' || c = '\x0c'

/-- Remove trailing whitespace. -/
def dropTrail (s : List Char) : List Char := (s.reverse.dropWhile isWs).reverse

/-- JavaScript `String.prototype.trim` (ASCII fragment). -/
def trim (s : List Char) : List Char := dropTrail (s.dropWhile isWs)

/-- JavaScript `newick.replace(/;$/, '')`: remove one trailing `;` if present. -/
def stripSemi (s : List Char) : List Char :=
  if s.getLast? = some ';' then s.dropLast else s

/-- JavaScript `String.prototype.indexOf` for a single character: index of the
first occurrence, `none` when absent (JS returns `-1`). -/
def idxOf (c : Char) : List Char → Option ℕ
  | [] => none
  | a :: as => if a = c then some 0 else (idxOf c as).map (· + 1)

/-- Decimal digit test (`'0'` to `'9'`). -/
def isDigitCh (c : Char) : Bool := 48 ≤ c.toNat && c.toNat ≤ 57

/-- Numeric value of a decimal digit character. -/
def dval (c : Char) : ℕ := c.toNat - 48

/-- Value of a string of decimal digits, most significant first. -/
def natVal (s : List Char) : ℕ := s.foldl (fun a c => 10 * a + dval c) 0

/-- The digit character for `n < 10`. -/
def digitChar : ℕ → Char
  | 0 => '0' | 1 => '1' | 2 => '2' | 3 => '3' | 4 => '4'
  | 5 => '5' | 6 => '6' | 7 => '7' | 8 => '8' | _ => '9'

/-- Decimal digits of a natural number, with explicit fuel (structural
recursion so that concrete instances reduce in the kernel). -/
def natDigitsF : ℕ → ℕ → List Char
  | 0, _ => []
  | fuel + 1, n =>
    if n < 10 then [digitChar n] else natDigitsF fuel (n / 10) ++ [digitChar (n % 10)]

/-- Decimal digits of a natural number, most significant first. -/
def natDigits (n : ℕ) : List Char := natDigitsF (n + 1) n

/-- Digits of `v` left-padded with `'0'` to width `k`. -/
def padNat (k v : ℕ) : List Char :=
  List.replicate (k - (natDigits v).length) '0' ++ natDigits v

/-- An exact decimal number: the value `m / 10 ^ e`.  Every finite number
manipulated by this code (branch lengths parsed by `parseFloat`, the
constants `0`) is of this form; the representation is not normalised, two
`Dec`s are compared through their value `Dec.val`. -/
structure Dec where
  m : ℤ
  e : ℕ
deriving DecidableEq

/-- The rational value of a `Dec`. -/
def Dec.val (d : Dec) : ℚ := (d.m : ℚ) / (10 : ℚ) ^ d.e

/-- A JavaScript number: `NaN`, the two infinities, or a finite decimal. -/
inductive JSNum where
  | nan : JSNum
  | inf : JSNum
  | ninf : JSNum
  | num : Dec → JSNum
deriving DecidableEq

/-- Zero as a `JSNum`. -/
def jzero : JSNum := .num ⟨0, 0⟩

/-- JavaScript truthiness of a number: `NaN`, `0` and `-0` are falsy,
everything else is truthy. -/
def jsTruthy : JSNum → Bool
  | .nan => false
  | .num d => decide (d.m ≠ 0)
  | _ => true

/-- JavaScript `x || 0` applied to a number: falsy values (`NaN`, `±0`)
become `0`, every other number passes through. -/
def jsOrZero (n : JSNum) : JSNum := if jsTruthy n then n else jzero

/-- Fractional continuation of the mantissa when no integer digits were
found: requires `.` followed by at least one digit. -/
def pfFracNoInt (r1 : List Char) : Option (Dec × List Char) :=
  match r1 with
  | c :: r2 =>
    if c = '.' then
      let fp := r2.takeWhile isDigitCh
      if fp.isEmpty then none
      else some (⟨natVal fp, fp.length⟩, r2.dropWhile isDigitCh)
    else none
  | [] => none

/-- Fractional continuation of the mantissa after integer digits `ip`: an
optional `.` with optional further digits. -/
def pfFrac (ip r1 : List Char) : Option (Dec × List Char) :=
  match r1 with
  | c :: r2 =>
    if c = '.' then
      let fp := r2.takeWhile isDigitCh
      some (⟨natVal ip * 10 ^ fp.length + natVal fp, fp.length⟩, r2.dropWhile isDigitCh)
    else some (⟨natVal ip, 0⟩, c :: r2)
  | [] => some (⟨natVal ip, 0⟩, [])

/-- Mantissa parsing of JavaScript `parseFloat`: an optional integer part,
then an optional `.` with fractional digits; returns the exact decimal value
and the unconsumed remainder, or `none` when no digits are found. -/
def parseMant (s : List Char) : Option (Dec × List Char) :=
  let ip := s.takeWhile isDigitCh
  let r1 := s.dropWhile isDigitCh
  if ip.isEmpty then pfFracNoInt r1 else pfFrac ip r1

/-- The part of the exponent after `e`/`E`: optional sign, then digits; no
digits leaves the mantissa unchanged. -/
def expTail (d : Dec) (r1 : List Char) : Dec :=
  match r1 with
  | c2 :: r2 =>
    if c2 = '-' then
      let ds := r2.takeWhile isDigitCh
      if ds.isEmpty then d else ⟨d.m, d.e + natVal ds⟩
    else if c2 = '+' then
      let ds := r2.takeWhile isDigitCh
      if ds.isEmpty then d else ⟨d.m * 10 ^ natVal ds, d.e⟩
    else
      let ds := (c2 :: r2).takeWhile isDigitCh
      if ds.isEmpty then d else ⟨d.m * 10 ^ natVal ds, d.e⟩
  | [] =>
    let ds := ([] : List Char).takeWhile isDigitCh
    if ds.isEmpty then d else ⟨d.m * 10 ^ natVal ds, d.e⟩

/-- Apply an exponent suffix (`e`/`E`, optional sign, digits) to a parsed
mantissa; a malformed exponent is not consumed (JS keeps the mantissa). -/
def applyExp (d : Dec) (rest : List Char) : Dec :=
  match rest with
  | [] => d
  | c :: r1 => if c = 'e' || c = 'E' then expTail d r1 else d

/-- Body of `parseFloat` after whitespace and sign handling. -/
def pfBody (s : List Char) (neg : Bool) : JSNum :=
  if (String.toList "Infinity").isPrefixOf s then (if neg then .ninf else .inf)
  else
    match parseMant s with
    | none => .nan
    | some (d, rest) =>
      let d1 := applyExp d rest
      .num (if neg then ⟨-d1.m, d1.e⟩ else d1)

/-- Sign handling of `parseFloat` on the whitespace-stripped string. -/
def pfSign : List Char → JSNum
  | [] => pfBody [] false
  | c :: r =>
    if c = '-' then pfBody r true
    else if c = '+' then pfBody r false
    else pfBody (c :: r) false

/-- JavaScript `parseFloat`: skip leading whitespace, optional sign, then the
longest decimal-literal prefix (or `Infinity`); `NaN` when there is none.
Trailing garbage is ignored. -/
def parseFloatJS (s : List Char) : JSNum := pfSign (s.dropWhile isWs)

/-- Parenthesis weight of a character: `+1` for `(`, `-1` for `)`, else `0`. -/
def balc (c : Char) : ℤ := if c = '(' then 1 else if c = ')' then -1 else 0

/-- Parenthesis balance of a string. -/
def bal (s : List Char) : ℤ := (s.map balc).sum

/-- The scan of `parseNode` that looks for the closing parenthesis matching
the first `(`: walk the string keeping a depth counter, incrementing on `(`,
decrementing on `)`, and stop at the `)` that brings the depth to `0`. -/
def findCloseAux : List Char → ℤ → ℕ → Option ℕ
  | [], _, _ => none
  | c :: rest, depth, i =>
    if c = '(' then findCloseAux rest (depth + 1) (i + 1)
    else if c = ')' then
      if depth - 1 = 0 then some i else findCloseAux rest (depth - 1) (i + 1)
    else findCloseAux rest depth (i + 1)

/-- Index of the `)` matching the first `(` (the `endParen` scan of the
source), `none` when the depth never returns to `0` (JS `-1`). -/
def findClose (s : List Char) : Option ℕ := findCloseAux s 0 0

/-- Push the trimmed accumulated child substring if it is nonempty, as in
`if (current.trim()) children.push(current.trim())`. -/
def pushT (cur : List Char) : List (List Char) :=
  if (trim cur).isEmpty then [] else [trim cur]

/-- The child-splitting loop of `parseNode`: scan the substring between the
matching parentheses, splitting at commas that occur at parenthesis depth
`0`; parentheses and nested commas are accumulated into the current child. -/
def splitAux : List Char → ℤ → List Char → List (List Char)
  | [], _, cur => pushT cur
  | c :: rest, depth, cur =>
    if c = '(' then splitAux rest (depth + 1) (cur ++ [c])
    else if c = ')' then splitAux rest (depth - 1) (cur ++ [c])
    else if c = ',' ∧ depth = 0 then pushT cur ++ splitAux rest depth []
    else splitAux rest depth (cur ++ [c])

/-- Split a children substring into top-level child substrings. -/
def splitTopLevel (cs : List Char) : List (List Char) := splitAux cs 0 []

/-- The dynamically-typed tree node of the source: a children array (empty
for leaves), a name (`none` models JS `null`), and a branch length. -/
inductive JTree where
  | node : List JTree → Option (List Char) → JSNum → JTree

/-- The children array of a node. -/
def JTree.children : JTree → List JTree
  | .node cs _ _ => cs

/-- The name of a node (`none` is JS `null`). -/
def JTree.name : JTree → Option (List Char)
  | .node _ nm _ => nm

/-- The branch length of a node. -/
def JTree.length : JTree → JSNum
  | .node _ _ len => len

/-- The placeholder label `'Internal'` given to unnamed internal nodes. -/
def internalLabel : List Char := String.toList "Internal"

/-- `x || 'Internal'`: the placeholder label when the string is empty. -/
def orInternal (x : List Char) : List Char := if x.isEmpty then internalLabel else x

/-- The `[name][':'branch_length]` handling after the matching `)` of an
internal node: when the first `:` has positive index the trimmed text
before it is the name (placeholder when empty) and the text after is the
branch length; when the `:` is at index `0` the name is the placeholder
and the rest is the length; with no `:` the whole trimmed remainder is the
name (placeholder when empty) and the length stays `0`. -/
def internalFinish (children : List JTree) (afterParen : List Char) : JTree :=
  match idxOf ':' afterParen with
  | some k =>
    if 0 < k then
      .node children (some (orInternal (trim (afterParen.take k))))
        (jsOrZero (parseFloatJS (afterParen.drop (k + 1))))
    else
      .node children (some internalLabel)
        (jsOrZero (parseFloatJS (afterParen.drop 1)))
  | none => .node children (some (orInternal (trim afterParen))) jzero

/-- The leaf branch of `parseNode`: split at the first `:` when its index
is positive, trimmed left part as the name and parsed right part as the
branch length; otherwise the whole trimmed string is the name with length
`0`. -/
def leafFinish (s : List Char) : JTree :=
  match idxOf ':' s with
  | some k =>
    if 0 < k then
      .node [] (some (trim (s.take k))) (jsOrZero (parseFloatJS (s.drop (k + 1))))
    else .node [] (some (trim s)) jzero
  | none => .node [] (some (trim s)) jzero

/-- The recursive parser `parseNode` of the source, with explicit fuel.
Matches the source line by line: trim; if the string starts with `(` find
the matching `)` (returning the bare fallback node when there is none),
split the inside into children at depth-0 commas and recurse, then read
`[name][':'length]` from the remainder after the `)`; otherwise parse a
leaf. -/
def parseNodeF : ℕ → List Char → JTree
  | 0, _ => .node [] none jzero
  | fuel + 1, str =>
    let s := trim str
    if s.head? = some '(' then
      match findClose s with
      | none => .node [] none jzero
      | some endParen =>
        internalFinish ((splitTopLevel ((s.take endParen).drop 1)).map (parseNodeF fuel))
          (s.drop (endParen + 1))
    else leafFinish s

/-- `parseNode` with the fuel that is proved sufficient. -/
def parseNode (s : List Char) : JTree := parseNodeF (s.length + 1) s

/-- `parseNewick` of the source: strip one trailing `;`, trim, parse. -/
def parseNewick (s : List Char) : JTree := parseNode (trim (stripSemi s))

/-- `Number.prototype.toFixed(4)` for a nonnegative decimal `m / 10 ^ e`:
round half away from zero to 4 decimal places and print with exactly 4
fractional digits. -/
def fixed4Pos (m e : ℕ) : List Char :=
  let n := (m * 10 ^ 4 * 2 + 10 ^ e) / (2 * 10 ^ e)
  natDigits (n / 10 ^ 4) ++ '.' :: padNat 4 (n % 10 ^ 4)

/-- `Number.prototype.toFixed(4)`. -/
def toFixed4 : JSNum → List Char
  | .nan => String.toList "NaN"
  | .inf => String.toList "Infinity"
  | .ninf => String.toList "-Infinity"
  | .num d => if d.m < 0 then '-' :: fixed4Pos d.m.natAbs d.e else fixed4Pos d.m.natAbs d.e

/-- `tree.name || 'Internal Node'` of the renderer. -/
def dispName : Option (List Char) → List Char
  | none => String.toList "Internal Node"
  | some x => if x.isEmpty then String.toList "Internal Node" else x

/-- The branch length annotation of the renderer:
`` tree.length ? ` (${tree.length.toFixed(4)})` : '' ``. -/
def lenAnnot (len : JSNum) : List Char :=
  if jsTruthy len then ' ' :: '(' :: (toFixed4 len ++ [')']) else []

mutual
/-- The `renderTreeAscii` function of the source: emit one line for the node
(prefix, connector `└── `/`├── `, display name, optional length annotation),
then render the children with the prefix extended by four spaces after a
last sibling and by `│   ` otherwise. -/
def renderTreeAscii : JTree → List Char → Bool → List Char
  | .node cs nm len, pre, isLast =>
    let connector := if isLast then String.toList "└── " else String.toList "├── "
    let line := pre ++ connector ++ dispName nm ++ lenAnnot len ++ ['\n']
    match cs with
    | [] => line
    | c :: rest =>
      line ++ renderChildren (c :: rest)
        (pre ++ (if isLast then String.toList "    " else String.toList "│   "))
/-- The `forEach` over the children array, passing
`index === children.length - 1` as the `isLast` flag. -/
def renderChildren : List JTree → List Char → List Char
  | [], _ => []
  | [c], pre => renderTreeAscii c pre true
  | c :: c2 :: rest, pre => renderTreeAscii c pre false ++ renderChildren (c2 :: rest) pre
end

/-- Canonical decimal rendering of the nonnegative decimal `m / 10 ^ e`:
the integer part followed, when `e > 0`, by `.` and exactly `e` fractional
digits. -/
def fmtDecPos (m e : ℕ) : List Char :=
  if e = 0 then natDigits m else natDigits (m / 10 ^ e) ++ '.' :: padNat e (m % 10 ^ e)

/-- Canonical decimal rendering of a `Dec` (sign, then `fmtDecPos`). -/
def fmtDec (d : Dec) : List Char :=
  if d.m < 0 then '-' :: fmtDecPos d.m.natAbs d.e else fmtDecPos d.m.natAbs d.e

/-- Modelled from the spec: the branch-length suffix of the Newick writer of
§4.4, which is not part of the frontend sources.  The branch length is
emitted as `':'` followed by a decimal number, and omitted exactly when the
node is the root and the length is exactly `0`.  Non-finite lengths are
outside the serializable domain and emit nothing. -/
def serLen (len : JSNum) (isRoot : Bool) : List Char :=
  match len with
  | .num d => if isRoot ∧ d.m = 0 then [] else ':' :: fmtDec d
  | _ => []

mutual
/-- Modelled from the spec: the Newick writer (tree serializer) of §4.4,
which is not part of the frontend sources.  Grammar produced:
`leaf := name [':' length]`, `internal := '(' subtree (',' subtree)* ')'
[label] [':' length]`; children in stored order; an absent internal label
emits nothing. -/
def serSub : JTree → Bool → List Char
  | .node [] nm len, isRoot =>
    (match nm with | some x => x | none => []) ++ serLen len isRoot
  | .node (c :: cs) nm len, isRoot =>
    '(' :: (serList (c :: cs) ++ ')' ::
      ((match nm with | some x => x | none => []) ++ serLen len isRoot))
/-- Modelled from the spec: comma-separated serialization of a children
sequence (each child a non-root subtree). -/
def serList : List JTree → List Char
  | [] => []
  | [c] => serSub c false
  | c :: c2 :: rest => serSub c false ++ ',' :: serList (c2 :: rest)
end

/-- Modelled from the spec: the full Newick text of a tree, `subtree ';'`. -/
def serialize (t : JTree) : List Char := serSub t true ++ [';']

/-- A serializable name or label: nonempty, free of the delimiter characters
`( ) , : ;` (validated upstream per §4.4), and without leading or trailing
whitespace. -/
def goodName (x : List Char) : Bool :=
  !x.isEmpty && trim x = x &&
    x.all (fun c => !(c = '(' || c = ')' || c = ',' || c = ':' || c = ';'))

mutual
/-- Well-formedness of a tree in the domain of the Newick writer: every
branch length is a finite nonnegative decimal, every leaf carries a good
name, every internal label is either absent or good. -/
def WFser : JTree → Bool
  | .node cs nm len =>
    (match len with | .num d => decide (0 ≤ d.m) | _ => false) &&
      (match cs with
       | [] => (match nm with | some x => goodName x | none => false)
       | _ :: _ =>
         (match nm with | some x => goodName x | none => true) && WFserL cs)
/-- `WFser` on a children list. -/
def WFserL : List JTree → Bool
  | [] => true
  | t :: ts => WFser t && WFserL ts
end

/-- Branch lengths agree within the round-trip tolerance of `1e-9`: both are
finite and `|a.val - b.val| ≤ 1 / 10 ^ 9`, stated over the integer
cross-multiplied form. -/
def lenClose : JSNum → JSNum → Bool
  | .num a, .num b =>
    decide (|a.m * (10 : ℤ) ^ b.e - b.m * (10 : ℤ) ^ a.e| * 10 ^ 9 ≤ 10 ^ (a.e + b.e))
  | _, _ => false

mutual
/-- The round-trip law's tree correspondence: same topology (children match
pointwise, in order), branch lengths within `1e-9`, leaf names identical,
and an internal node keeps its label except that an unnamed (`none`) one
may come back as the placeholder label `Internal`. -/
def RT : JTree → JTree → Bool
  | .node cs nm len, .node cs' nm' len' =>
    lenClose len len' &&
      (match cs, cs' with
       | [], [] => nm' = nm
       | _ :: _, _ :: _ =>
         (nm' = nm || (nm = none && nm' = some internalLabel)) && RTL cs cs'
       | _, _ => false)
/-- `RT` pointwise on children lists of equal length. -/
def RTL : List JTree → List JTree → Bool
  | [], [] => true
  | t :: ts, u :: us => RT t u && RTL ts us
  | _, _ => false
end

mutual
/-- The ordered list of leaf names of a tree (a leaf is a node with an empty
children array; an unnamed leaf contributes the empty name). -/
def leafNames : JTree → List (List Char)
  | .node [] nm _ => [(match nm with | some x => x | none => [])]
  | .node (c :: cs) _ _ => leafNamesL (c :: cs)
/-- `leafNames` over a children list. -/
def leafNamesL : List JTree → List (List Char)
  | [] => []
  | t :: ts => leafNames t ++ leafNamesL ts
end

mutual
/-- All nodes of a tree, in pre-order. -/
def allNodes : JTree → List JTree
  | .node cs nm len => .node cs nm len :: allNodesL cs
/-- `allNodes` over a children list. -/
def allNodesL : List JTree → List JTree
  | [] => []
  | t :: ts => allNodes t ++ allNodesL ts
end

/-- Specification-side predicate: position `j` holds the `)` whose prefix
(`j` included) has parenthesis balance `d + bal = 0`. -/
def closeAt (s : List Char) (d : ℤ) (j : ℕ) : Bool :=
  s.getD j ' ' = ')' && d + bal (s.take (j + 1)) = 0

/-- Specification-side matching-parenthesis search: the first position whose
character is `)` and whose balance (offset by `d`) returns to zero there. -/
def closeSpecD (s : List Char) (d : ℤ) : Option ℕ :=
  (List.range s.length).find? (closeAt s d)

/-- Specification-side predicate: position `k` holds a comma lying at
parenthesis depth `d + bal = 0`. -/
def commaAt (s : List Char) (d : ℤ) (k : ℕ) : Bool :=
  s.getD k ' ' = ',' && d + bal (s.take k) = 0

/-- Specification-side search for the first top-level comma. -/
def commaSpecD (s : List Char) (d : ℤ) : Option ℕ :=
  (List.range s.length).find? (commaAt s d)

/-- Specification-side splitting: cut the string exactly at the commas that
lie at parenthesis depth `0`. -/
def topSplit (cs : List Char) : List (List Char) :=
  match h : commaSpecD cs 0 with
  | none => [cs]
  | some k => cs.take k :: topSplit (cs.drop (k + 1))
termination_by cs.length
decreasing_by
  have hk : k ∈ List.range cs.length := List.mem_of_find?_eq_some h
  have := List.mem_range.mp hk
  simp only [List.length_drop]
  omega

/-- Invariants of a serialized subtree string: nonempty, stable under
`trim`, parenthesis-balanced with nonnegative prefix balances, and with no
comma at parenthesis depth `0`. -/
def PieceOK (w : List Char) : Prop :=
  w ≠ [] ∧ trim w = w ∧ (∀ n, 0 ≤ bal (w.take n)) ∧ bal w = 0 ∧
    (∀ m, m < w.length → w.getD m ' ' = ',' → bal (w.take m) ≠ 0)

theorem head?_dropWhile_not (p : Char → Bool) (l : List Char) :
    ∀ c, (l.dropWhile p).head? = some c → p c = false := by
  induction l with
  | nil => intro c h; simp [List.dropWhile] at h
  | cons a as ih =>
    intro c h
    by_cases ha : p a
    · rw [List.dropWhile_cons_of_pos ha] at h
      exact ih c h
    · rw [List.dropWhile_cons_of_neg ha] at h
      simp at h
      rw [← h]
      exact Bool.eq_false_iff.mpr ha

theorem dropWhile_eq_self_of_head? (p : Char → Bool) (l : List Char)
    (h : ∀ c, l.head? = some c → p c = false) : l.dropWhile p = l := by
  cases l with
  | nil => rfl
  | cons a as =>
    have := h a (by simp)
    simp [List.dropWhile, this]

theorem dropTrail_prefixOf (s : List Char) : dropTrail s <+: s := by
  have h1 : s.reverse.dropWhile isWs <:+ s.reverse := List.dropWhile_suffix isWs
  have h2 := h1.reverse
  rwa [List.reverse_reverse] at h2

theorem getLast?_dropTrail_not (s : List Char) :
    ∀ c, (dropTrail s).getLast? = some c → isWs c = false := by
  intro c h
  unfold dropTrail at h
  rw [List.getLast?_reverse] at h
  exact head?_dropWhile_not isWs s.reverse c h

theorem head?_trim_not (s : List Char) :
    ∀ c, (trim s).head? = some c → isWs c = false := by
  intro c h
  unfold trim at h
  obtain ⟨t, ht⟩ := dropTrail_prefixOf (s.dropWhile isWs)
  have hh : (s.dropWhile isWs).head? = some c := by
    rw [← ht]
    cases hd : dropTrail (s.dropWhile isWs) with
    | nil => rw [hd] at h; simp at h
    | cons x xs =>
      rw [hd] at h
      simp at h ⊢
      exact h
  exact head?_dropWhile_not isWs s c hh

theorem getLast?_trim_not (s : List Char) :
    ∀ c, (trim s).getLast? = some c → isWs c = false :=
  getLast?_dropTrail_not (s.dropWhile isWs)

theorem trim_eq_self (s : List Char)
    (h1 : ∀ c, s.head? = some c → isWs c = false)
    (h2 : ∀ c, s.getLast? = some c → isWs c = false) : trim s = s := by
  unfold trim
  rw [dropWhile_eq_self_of_head? isWs s h1]
  unfold dropTrail
  rw [dropWhile_eq_self_of_head? isWs s.reverse (by
    intro c hc
    rw [List.head?_reverse] at hc
    exact h2 c hc)]
  exact List.reverse_reverse s

theorem trim_idem (s : List Char) : trim (trim s) = trim s :=
  trim_eq_self (trim s) (head?_trim_not s) (getLast?_trim_not s)

theorem length_trim_le (s : List Char) : (trim s).length ≤ s.length := by
  have h1 : (trim s).length ≤ (s.dropWhile isWs).length :=
    (dropTrail_prefixOf (s.dropWhile isWs)).length_le
  exact le_trans h1 (List.dropWhile_suffix isWs).length_le

theorem bal_nil : bal [] = 0 := rfl

theorem bal_cons (c : Char) (s : List Char) : bal (c :: s) = balc c + bal s := by
  simp [bal]

theorem bal_append (a b : List Char) : bal (a ++ b) = bal a + bal b := by
  simp [bal]

theorem bal_take_succ (s : List Char) (n : ℕ) (h : n < s.length) :
    bal (s.take (n + 1)) = bal (s.take n) + balc (s.getD n ' ') := by
  rw [List.take_succ]
  rw [bal_append]
  congr 1
  rw [List.getElem?_eq_getElem h]
  simp [bal, List.getD, List.getElem?_eq_getElem h]

theorem balc_eq_neg_one {c : Char} (h : balc c = -1) : c = ')' := by
  unfold balc at h
  by_cases h1 : c = '('
  · rw [if_pos h1] at h; omega
  · rw [if_neg h1] at h
    by_cases h2 : c = ')'
    · exact h2
    · rw [if_neg h2] at h; omega

theorem balc_ne_lparen {c : Char} (h : c ≠ '(') : balc c = -1 ∨ balc c = 0 := by
  unfold balc
  rw [if_neg h]
  by_cases h2 : c = ')'
  · rw [if_pos h2]; left; rfl
  · rw [if_neg h2]; right; rfl


theorem findCloseAux_some :
    ∀ {w : List Char} {d : ℤ} {i r : ℕ}, findCloseAux w d i = some r →
      i ≤ r ∧ r - i < w.length ∧ w.getD (r - i) ' ' = ')' ∧
        d + bal (w.take (r - i + 1)) = 0 ∧
        ∀ m, m < r - i → ¬(w.getD m ' ' = ')' ∧ d + bal (w.take (m + 1)) = 0) := by
  intro w
  induction w with
  | nil => intro d i r h; simp [findCloseAux] at h
  | cons c rest ih =>
    intro d i r h
    simp only [findCloseAux] at h
    by_cases hc : c = '('
    · rw [if_pos hc] at h
      subst hc
      obtain ⟨h1, h2, h3, h4, h5⟩ := ih h
      have hbc : balc '(' = 1 := rfl
      have hri : r - i = (r - (i + 1)) + 1 := by omega
      refine ⟨by omega, by simp only [List.length_cons]; omega, ?_, ?_, ?_⟩
      · rw [hri, List.getD_cons_succ]; exact h3
      · rw [hri, List.take_succ_cons, bal_cons, hbc]; omega
      · intro m hm
        match m with
        | 0 =>
          intro hcon
          rw [List.getD_cons_zero] at hcon
          exact absurd hcon.1 (by decide)
        | m' + 1 =>
          intro hcon
          rw [List.getD_cons_succ] at hcon
          rw [List.take_succ_cons, bal_cons, hbc] at hcon
          exact h5 m' (by omega) ⟨hcon.1, by omega⟩
    · rw [if_neg hc] at h
      by_cases hc2 : c = ')'
      · rw [if_pos hc2] at h
        subst hc2
        have hbc : balc ')' = -1 := rfl
        by_cases hd : d - 1 = 0
        · rw [if_pos hd] at h
          have hir : i = r := by injection h
          subst hir
          refine ⟨le_refl i, by simp, ?_, ?_, ?_⟩
          · rw [Nat.sub_self, List.getD_cons_zero]
          · rw [Nat.sub_self, List.take_succ_cons, List.take_zero, bal_cons, hbc, bal_nil]
            omega
          · intro m hm; rw [Nat.sub_self] at hm; omega
        · rw [if_neg hd] at h
          obtain ⟨h1, h2, h3, h4, h5⟩ := ih h
          have hri : r - i = (r - (i + 1)) + 1 := by omega
          refine ⟨by omega, by simp only [List.length_cons]; omega, ?_, ?_, ?_⟩
          · rw [hri, List.getD_cons_succ]; exact h3
          · rw [hri, List.take_succ_cons, bal_cons, hbc]; omega
          · intro m hm
            match m with
            | 0 =>
              intro hcon
              rw [List.take_succ_cons, List.take_zero, bal_cons, hbc, bal_nil] at hcon
              omega
            | m' + 1 =>
              intro hcon
              rw [List.getD_cons_succ] at hcon
              rw [List.take_succ_cons, bal_cons, hbc] at hcon
              exact h5 m' (by omega) ⟨hcon.1, by omega⟩
      · rw [if_neg hc2] at h
        obtain ⟨h1, h2, h3, h4, h5⟩ := ih h
        have hbc : balc c = 0 := by unfold balc; rw [if_neg hc, if_neg hc2]
        have hri : r - i = (r - (i + 1)) + 1 := by omega
        refine ⟨by omega, by simp only [List.length_cons]; omega, ?_, ?_, ?_⟩
        · rw [hri, List.getD_cons_succ]; exact h3
        · rw [hri, List.take_succ_cons, bal_cons, hbc]; omega
        · intro m hm
          match m with
          | 0 =>
            intro hcon
            rw [List.getD_cons_zero] at hcon
            exact hc2 hcon.1
          | m' + 1 =>
            intro hcon
            rw [List.getD_cons_succ] at hcon
            rw [List.take_succ_cons, bal_cons, hbc] at hcon
            exact h5 m' (by omega) ⟨hcon.1, by omega⟩

theorem findCloseAux_none :
    ∀ {w : List Char} {d : ℤ} {i : ℕ}, findCloseAux w d i = none →
      ∀ m, m < w.length → ¬(w.getD m ' ' = ')' ∧ d + bal (w.take (m + 1)) = 0) := by
  intro w
  induction w with
  | nil => intro d i _ m hm; simp at hm
  | cons c rest ih =>
    intro d i h m hm
    simp only [findCloseAux] at h
    by_cases hc : c = '('
    · rw [if_pos hc] at h
      subst hc
      have hbc : balc '(' = 1 := rfl
      match m with
      | 0 =>
        intro hcon
        rw [List.getD_cons_zero] at hcon
        exact absurd hcon.1 (by decide)
      | m' + 1 =>
        intro hcon
        rw [List.getD_cons_succ] at hcon
        rw [List.take_succ_cons, bal_cons, hbc] at hcon
        exact ih h m' (by simp at hm; omega) ⟨hcon.1, by omega⟩
    · rw [if_neg hc] at h
      by_cases hc2 : c = ')'
      · rw [if_pos hc2] at h
        subst hc2
        have hbc : balc ')' = -1 := rfl
        by_cases hd : d - 1 = 0
        · rw [if_pos hd] at h; exact absurd h (by simp)
        · rw [if_neg hd] at h
          match m with
          | 0 =>
            intro hcon
            rw [List.take_succ_cons, List.take_zero, bal_cons, hbc, bal_nil] at hcon
            omega
          | m' + 1 =>
            intro hcon
            rw [List.getD_cons_succ] at hcon
            rw [List.take_succ_cons, bal_cons, hbc] at hcon
            exact ih h m' (by simp at hm; omega) ⟨hcon.1, by omega⟩
      · rw [if_neg hc2] at h
        have hbc : balc c = 0 := by unfold balc; rw [if_neg hc, if_neg hc2]
        match m with
        | 0 =>
          intro hcon
          rw [List.getD_cons_zero] at hcon
          exact hc2 hcon.1
        | m' + 1 =>
          intro hcon
          rw [List.getD_cons_succ] at hcon
          rw [List.take_succ_cons, bal_cons, hbc] at hcon
          exact ih h m' (by simp at hm; omega) ⟨hcon.1, by omega⟩

theorem findCloseAux_append :
    ∀ (w : List Char) (d : ℤ) (i : ℕ) (rest : List Char),
      (∀ m, m < w.length → ¬(w.getD m ' ' = ')' ∧ d + bal (w.take (m + 1)) = 0)) →
      findCloseAux (w ++ rest) d i = findCloseAux rest (d + bal w) (i + w.length) := by
  intro w
  induction w with
  | nil => intro d i rest _; simp [bal_nil]
  | cons c w' ih =>
    intro d i rest h
    rw [List.cons_append]
    simp only [findCloseAux]
    by_cases hc : c = '('
    · rw [if_pos hc]
      subst hc
      have hbc : balc '(' = 1 := rfl
      rw [ih (d + 1) (i + 1) rest (by
        intro m hm hcon
        exact h (m + 1) (by simp only [List.length_cons]; omega)
          (by
            rw [List.getD_cons_succ, List.take_succ_cons, bal_cons, hbc]
            exact ⟨hcon.1, by omega⟩))]
      rw [bal_cons, hbc]
      congr 1
      · omega
      · simp only [List.length_cons]; omega
    · rw [if_neg hc]
      by_cases hc2 : c = ')'
      · rw [if_pos hc2]
        subst hc2
        have hbc : balc ')' = -1 := rfl
        have hd : ¬(d - 1 = 0) := by
          intro hd
          exact h 0 (by simp only [List.length_cons]; omega)
            (by
              rw [List.getD_cons_zero, List.take_succ_cons, List.take_zero, bal_cons,
                hbc, bal_nil]
              exact ⟨rfl, by omega⟩)
        rw [if_neg hd]
        rw [ih (d - 1) (i + 1) rest (by
          intro m hm hcon
          exact h (m + 1) (by simp only [List.length_cons]; omega)
            (by
              rw [List.getD_cons_succ, List.take_succ_cons, bal_cons, hbc]
              exact ⟨hcon.1, by omega⟩))]
        rw [bal_cons, hbc]
        congr 1
        · omega
        · simp only [List.length_cons]; omega
      · rw [if_neg hc2]
        have hbc : balc c = 0 := by unfold balc; rw [if_neg hc, if_neg hc2]
        rw [ih d (i + 1) rest (by
          intro m hm hcon
          exact h (m + 1) (by simp only [List.length_cons]; omega)
            (by
              rw [List.getD_cons_succ, List.take_succ_cons, bal_cons, hbc]
              exact ⟨hcon.1, by omega⟩))]
        rw [bal_cons, hbc]
        congr 1
        · omega
        · simp only [List.length_cons]; omega


theorem balc_cases (c : Char) : balc c = 1 ∨ balc c = -1 ∨ balc c = 0 := by
  unfold balc
  by_cases ha : c = '('
  · rw [if_pos ha]; left; rfl
  · rw [if_neg ha]
    by_cases hb : c = ')'
    · rw [if_pos hb]; right; left; rfl
    · rw [if_neg hb]; right; right; rfl

theorem findClose_wrap (w tail : List Char)
    (hin : ∀ n, 0 ≤ bal (w.take n)) (hb : bal w = 0) :
    findClose ('(' :: (w ++ ')' :: tail)) = some (w.length + 1) := by
  unfold findClose
  have h1 : findCloseAux ('(' :: (w ++ ')' :: tail)) 0 0 =
      findCloseAux (w ++ ')' :: tail) 1 1 := by
    simp [findCloseAux]
  rw [h1]
  rw [findCloseAux_append w 1 1 (')' :: tail) (by
    intro m hm hcon
    have := hin (m + 1)
    omega)]
  rw [hb]
  have h2 : findCloseAux (')' :: tail) (1 + 0) (1 + w.length) = some (1 + w.length) := by
    simp [findCloseAux]
  rw [h2]
  congr 1
  omega

theorem bal_take_one (s : List Char) (hh : s.head? = some '(') :
    bal (s.take 1) = 1 := by
  cases s with
  | nil => simp at hh
  | cons a s' =>
    have ha : a = '(' := by simp at hh; exact hh
    subst ha
    rw [List.take_succ_cons, List.take_zero, bal_cons, bal_nil]
    rfl

theorem exists_earlier_close (s : List Char)
    (hh : s.head? = some '(') (hin : ∀ n, 0 ≤ bal (s.take n)) :
    ∀ N, 1 ≤ N → N ≤ s.length → bal (s.take N) = 0 →
      ∃ m, m < N ∧ s.getD m ' ' = ')' ∧ bal (s.take (m + 1)) = 0 := by
  intro N
  induction N using Nat.strong_induction_on with
  | _ N ih =>
    intro h1 hN hz
    have hs1 : bal (s.take 1) = 1 := bal_take_one s hh
    by_cases hN1 : N = 1
    · rw [hN1] at hz; omega
    · have hN2 : 2 ≤ N := by omega
      by_cases hz2 : bal (s.take (N - 1)) = 0
      · obtain ⟨m, hm, hc, hz3⟩ := ih (N - 1) (by omega) (by omega) (by omega) hz2
        exact ⟨m, by omega, hc, hz3⟩
      · have hpos : 1 ≤ bal (s.take (N - 1)) := by
          have := hin (N - 1)
          omega
        have hstep := bal_take_succ s (N - 1) (by omega)
        rw [show N - 1 + 1 = N by omega] at hstep
        have hbc : balc (s.getD (N - 1) ' ') = -1 := by
          have := balc_cases (s.getD (N - 1) ' ')
          omega
        refine ⟨N - 1, by omega, balc_eq_neg_one hbc, ?_⟩
        rw [show N - 1 + 1 = N by omega]
        omega

theorem findClose_balanced (s : List Char)
    (hh : s.head? = some '(') (hin : ∀ n, 0 ≤ bal (s.take n)) (hb : bal s = 0) :
    ∃ j, findClose s = some j ∧ j < s.length ∧ s.getD j ' ' = ')' ∧
      bal (s.take (j + 1)) = 0 ∧ ∀ i, 1 ≤ i → i ≤ j → 1 ≤ bal (s.take i) := by
  have hlen : 1 ≤ s.length := by
    cases s with
    | nil => simp at hh
    | cons a s' => simp
  obtain ⟨m, hm, hmc, hmz⟩ := exists_earlier_close s hh hin s.length hlen (le_refl _)
    (by rw [List.take_length]; exact hb)
  cases hj : findClose s with
  | none =>
    have := findCloseAux_none (w := s) (d := 0) (i := 0) hj m hm
    simp only [zero_add] at this
    exact absurd ⟨hmc, hmz⟩ this
  | some j =>
    obtain ⟨_, hj2, hj3, hj4, hj5⟩ := findCloseAux_some (w := s) (d := 0) (i := 0) hj
    simp only [Nat.sub_zero, zero_add] at hj2 hj3 hj4 hj5
    refine ⟨j, rfl, hj2, hj3, hj4, ?_⟩
    intro i hi1 hij
    by_contra hcon
    push_neg at hcon
    have hzero : bal (s.take i) = 0 := by
      have := hin i
      omega
    obtain ⟨m2, hm2, hm2c, hm2z⟩ := exists_earlier_close s hh hin i hi1
      (by omega) hzero
    exact hj5 m2 (by omega) ⟨hm2c, hm2z⟩

theorem mem_pushT {p cur : List Char} (h : p ∈ pushT cur) : p = trim cur := by
  unfold pushT at h
  by_cases he : (trim cur).isEmpty
  · rw [if_pos he] at h; simp at h
  · rw [if_neg he] at h; simp at h; exact h

theorem splitAux_mem_length :
    ∀ (cs : List Char) (d : ℤ) (cur p : List Char), p ∈ splitAux cs d cur →
      p.length ≤ cur.length + cs.length := by
  intro cs
  induction cs with
  | nil =>
    intro d cur p h
    simp only [splitAux] at h
    have := mem_pushT h
    subst this
    simp only [List.length_nil]
    have := length_trim_le cur
    omega
  | cons c rest ih =>
    intro d cur p h
    simp only [splitAux] at h
    by_cases hc : c = '('
    · rw [if_pos hc] at h
      have := ih (d + 1) (cur ++ [c]) p h
      simp only [List.length_append, List.length_cons, List.length_nil] at this ⊢
      omega
    · rw [if_neg hc] at h
      by_cases hc2 : c = ')'
      · rw [if_pos hc2] at h
        have := ih (d - 1) (cur ++ [c]) p h
        simp only [List.length_append, List.length_cons, List.length_nil] at this ⊢
        omega
      · rw [if_neg hc2] at h
        by_cases hc3 : c = ',' ∧ d = 0
        · rw [if_pos hc3] at h
          rcases List.mem_append.mp h with h1 | h2
          · have := mem_pushT h1
            subst this
            have := length_trim_le cur
            simp only [List.length_cons]
            omega
          · have := ih d [] p h2
            simp only [List.length_nil, List.length_cons] at this ⊢
            omega
        · rw [if_neg hc3] at h
          have := ih d (cur ++ [c]) p h
          simp only [List.length_append, List.length_cons, List.length_nil] at this ⊢
          omega

theorem splitAux_append :
    ∀ (p : List Char) (d : ℤ) (cur rest : List Char),
      (∀ m, m < p.length → p.getD m ' ' = ',' → d + bal (p.take m) ≠ 0) →
      splitAux (p ++ rest) d cur = splitAux rest (d + bal p) (cur ++ p) := by
  intro p
  induction p with
  | nil => intro d cur rest _; simp [bal_nil]
  | cons c p' ih =>
    intro d cur rest h
    rw [List.cons_append]
    simp only [splitAux]
    by_cases hc : c = '('
    · rw [if_pos hc]
      subst hc
      have hbc : balc '(' = 1 := rfl
      rw [ih (d + 1) (cur ++ ['(']) rest (by
        intro m hm hcm
        have := h (m + 1) (by simp only [List.length_cons]; omega)
          (by rw [List.getD_cons_succ]; exact hcm)
        rw [List.take_succ_cons, bal_cons, hbc] at this
        omega)]
      have e2 : (cur ++ ['(']) ++ p' = cur ++ '(' :: p' := by simp
      rw [e2, bal_cons, hbc]
      congr 1
      ring
    · rw [if_neg hc]
      by_cases hc2 : c = ')'
      · rw [if_pos hc2]
        subst hc2
        have hbc : balc ')' = -1 := rfl
        rw [ih (d - 1) (cur ++ [')']) rest (by
          intro m hm hcm
          have := h (m + 1) (by simp only [List.length_cons]; omega)
            (by rw [List.getD_cons_succ]; exact hcm)
          rw [List.take_succ_cons, bal_cons, hbc] at this
          omega)]
        have e2 : (cur ++ [')']) ++ p' = cur ++ ')' :: p' := by simp
        rw [e2, bal_cons, hbc]
        congr 1
        ring
      · rw [if_neg hc2]
        have hbc : balc c = 0 := by unfold balc; rw [if_neg hc, if_neg hc2]
        have hc3 : ¬(c = ',' ∧ d = 0) := by
          intro hcon
          exact h 0 (by simp only [List.length_cons]; omega)
            (by rw [List.getD_cons_zero]; exact hcon.1)
            (by rw [List.take_zero, bal_nil]; omega)
        rw [if_neg hc3]
        rw [ih d (cur ++ [c]) rest (by
          intro m hm hcm
          have := h (m + 1) (by simp only [List.length_cons]; omega)
            (by rw [List.getD_cons_succ]; exact hcm)
          rw [List.take_succ_cons, bal_cons, hbc] at this
          omega)]
        have e2 : (cur ++ [c]) ++ p' = cur ++ c :: p' := by simp
        rw [e2, bal_cons, hbc]
        congr 1
        ring


theorem commaAt_succ (c : Char) (rest : List Char) (d : ℤ) (k : ℕ) :
    commaAt (c :: rest) d (k + 1) = commaAt rest (d + balc c) k := by
  unfold commaAt
  rw [List.getD_cons_succ, List.take_succ_cons, bal_cons]
  congr 1
  rw [add_assoc]

theorem commaAt_zero (c : Char) (rest : List Char) (d : ℤ) :
    commaAt (c :: rest) d 0 = true ↔ (c = ',' ∧ d = 0) := by
  unfold commaAt
  rw [List.getD_cons_zero, List.take_zero, bal_nil]
  rw [Bool.and_eq_true, decide_eq_true_eq, decide_eq_true_eq]
  constructor
  · rintro ⟨h1, h2⟩; exact ⟨h1, by omega⟩
  · rintro ⟨h1, h2⟩; exact ⟨h1, by omega⟩

theorem commaSpecD_cons (c : Char) (rest : List Char) (d : ℤ) :
    commaSpecD (c :: rest) d =
      if c = ',' ∧ d = 0 then some 0
      else (commaSpecD rest (d + balc c)).map (· + 1) := by
  unfold commaSpecD
  rw [List.length_cons, List.range_succ_eq_map]
  by_cases h0 : c = ',' ∧ d = 0
  · rw [if_pos h0]
    exact List.find?_cons_of_pos _ ((commaAt_zero c rest d).mpr h0)
  · rw [if_neg h0]
    rw [List.find?_cons_of_neg _ (fun hc => h0 ((commaAt_zero c rest d).mp hc))]
    rw [List.find?_map]
    have hfun : (commaAt (c :: rest) d ∘ Nat.succ) = commaAt rest (d + balc c) := by
      funext k
      exact commaAt_succ c rest d k
    rw [hfun]

theorem splitAux_eq_spec :
    ∀ (cs : List Char) (d : ℤ) (cur : List Char),
      splitAux cs d cur =
        match commaSpecD cs d with
        | none => pushT (cur ++ cs)
        | some k => pushT (cur ++ cs.take k) ++ splitAux (cs.drop (k + 1)) 0 [] := by
  intro cs
  induction cs with
  | nil =>
    intro d cur
    have h : commaSpecD [] d = none := rfl
    rw [h]
    simp [splitAux]
  | cons c rest ih =>
    intro d cur
    rw [commaSpecD_cons]
    by_cases hcm : c = ',' ∧ d = 0
    · rw [if_pos hcm]
      obtain ⟨hc, hd⟩ := hcm
      subst hc
      subst hd
      rw [show splitAux (',' :: rest) 0 cur = pushT cur ++ splitAux rest 0 [] from by
        simp [splitAux]]
      simp
    · rw [if_neg hcm]
      simp only [splitAux]
      by_cases hc : c = '('
      · rw [if_pos hc]
        subst hc
        have hbc : balc '(' = 1 := rfl
        rw [hbc, ih (d + 1) (cur ++ ['('])]
        cases hspec : commaSpecD rest (d + 1) with
        | none => simp
        | some k =>
          simp only [Option.map_some']
          rw [List.take_succ_cons, List.drop_succ_cons]
          simp [List.append_assoc]
      · rw [if_neg hc]
        by_cases hc2 : c = ')'
        · rw [if_pos hc2]
          subst hc2
          have hbc : balc ')' = -1 := rfl
          rw [hbc, ih (d - 1) (cur ++ [')'])]
          have hd1 : d + -1 = d - 1 := by ring
          rw [hd1]
          cases hspec : commaSpecD rest (d - 1) with
          | none => simp
          | some k =>
            simp only [Option.map_some']
            rw [List.take_succ_cons, List.drop_succ_cons]
            simp [List.append_assoc]
        · rw [if_neg hc2, if_neg hcm]
          have hbc : balc c = 0 := by unfold balc; rw [if_neg hc, if_neg hc2]
          rw [hbc, add_zero, ih d (cur ++ [c])]
          cases hspec : commaSpecD rest d with
          | none => simp
          | some k =>
            simp only [Option.map_some']
            rw [List.take_succ_cons, List.drop_succ_cons]
            simp [List.append_assoc]

theorem topSplit_eq_none {cs : List Char} (h : commaSpecD cs 0 = none) :
    topSplit cs = [cs] := by
  rw [topSplit]
  split
  · rfl
  · rename_i k hk
    rw [h] at hk
    cases hk

theorem topSplit_eq_some {cs : List Char} {k : ℕ} (h : commaSpecD cs 0 = some k) :
    topSplit cs = cs.take k :: topSplit (cs.drop (k + 1)) := by
  rw [topSplit]
  split
  · rename_i hk
    rw [h] at hk
    cases hk
  · rename_i k2 hk2
    rw [h] at hk2
    injection hk2 with hkk
    subst hkk
    rfl


theorem splitTopLevel_eq_topSplit (cs : List Char) :
    splitTopLevel cs = ((topSplit cs).map trim).filter (fun p => !p.isEmpty) := by
  suffices H : ∀ n cs0, List.length cs0 ≤ n →
      splitTopLevel cs0 = ((topSplit cs0).map trim).filter (fun p => !p.isEmpty) from
    H cs.length cs (le_refl _)
  intro n
  induction n with
  | zero =>
    intro cs0 hlen
    have h0 : cs0 = [] := List.length_eq_zero.mp (by omega)
    subst h0
    rw [topSplit_eq_none (show commaSpecD [] 0 = none from rfl)]
    decide
  | succ n ihn =>
    intro cs0 hlen
    unfold splitTopLevel
    rw [splitAux_eq_spec cs0 0 []]
    cases hspec : commaSpecD cs0 0 with
    | none =>
      simp only [hspec]
      rw [topSplit_eq_none hspec]
      simp only [List.nil_append, List.map_cons, List.map_nil, List.filter_cons,
        List.filter_nil]
      unfold pushT
      by_cases he : (trim cs0).isEmpty
      · simp [he]
      · simp [he]
    | some k =>
      simp only [hspec]
      have hk : k < cs0.length := by
        have hmem := List.mem_of_find?_eq_some hspec
        exact List.mem_range.mp hmem
      rw [topSplit_eq_some hspec]
      have ihd := ihn (cs0.drop (k + 1)) (by
        rw [List.length_drop]; omega)
      unfold splitTopLevel at ihd
      rw [ihd]
      simp only [List.nil_append, List.map_cons, List.filter_cons]
      unfold pushT
      by_cases he : (trim (cs0.take k)).isEmpty
      · simp [he]
      · simp [he]

theorem natDigitsF_irrel :
    ∀ (f g n : ℕ), n < f → n < g → natDigitsF f n = natDigitsF g n := by
  intro f
  induction f with
  | zero => intro g n h; omega
  | succ f ihf =>
    intro g n hf hg
    cases g with
    | zero => omega
    | succ g =>
      simp only [natDigitsF]
      by_cases h10 : n < 10
      · rw [if_pos h10, if_pos h10]
      · rw [if_neg h10, if_neg h10]
        have hd : n / 10 < n := Nat.div_lt_self (by omega) (by omega)
        rw [ihf g (n / 10) (by omega) (by omega)]

theorem natDigits_eq (n : ℕ) :
    natDigits n = if n < 10 then [digitChar n]
      else natDigits (n / 10) ++ [digitChar (n % 10)] := by
  by_cases h10 : n < 10
  · rw [if_pos h10]
    unfold natDigits
    simp only [natDigitsF]
    rw [if_pos h10]
  · rw [if_neg h10]
    have hL : natDigits n = natDigitsF n (n / 10) ++ [digitChar (n % 10)] := by
      unfold natDigits
      simp only [natDigitsF]
      rw [if_neg h10]
    rw [hL]
    rw [natDigitsF_irrel n (n / 10 + 1) (n / 10)
      (by
        have hd : n / 10 < n := Nat.div_lt_self (by omega) (by omega)
        omega)
      (by omega)]
    rfl

theorem natDigits_ne_nil (n : ℕ) : natDigits n ≠ [] := by
  rw [natDigits_eq]
  by_cases h10 : n < 10
  · rw [if_pos h10]; simp
  · rw [if_neg h10]; simp

theorem digitChar_digit {m : ℕ} (h : m < 10) : isDigitCh (digitChar m) = true := by
  interval_cases m <;> decide

theorem dval_digitChar {m : ℕ} (h : m < 10) : dval (digitChar m) = m := by
  interval_cases m <;> decide

theorem natDigits_all_digit (n : ℕ) : ∀ c ∈ natDigits n, isDigitCh c = true := by
  induction n using Nat.strong_induction_on with
  | _ n ih =>
    rw [natDigits_eq]
    by_cases h10 : n < 10
    · rw [if_pos h10]
      intro c hc
      simp at hc
      subst hc
      exact digitChar_digit h10
    · rw [if_neg h10]
      intro c hc
      rcases List.mem_append.mp hc with h1 | h1
      · exact ih (n / 10) (Nat.div_lt_self (by omega) (by omega)) c h1
      · simp at h1
        subst h1
        exact digitChar_digit (Nat.mod_lt n (by omega))

theorem natVal_append_singleton (xs : List Char) (c : Char) :
    natVal (xs ++ [c]) = 10 * natVal xs + dval c := by
  unfold natVal
  rw [List.foldl_append]
  rfl

theorem natVal_natDigits (n : ℕ) : natVal (natDigits n) = n := by
  induction n using Nat.strong_induction_on with
  | _ n ih =>
    rw [natDigits_eq]
    by_cases h10 : n < 10
    · rw [if_pos h10]
      unfold natVal
      simp only [List.foldl_cons, List.foldl_nil]
      rw [dval_digitChar h10]
      omega
    · rw [if_neg h10]
      rw [natVal_append_singleton]
      rw [ih (n / 10) (Nat.div_lt_self (by omega) (by omega))]
      rw [dval_digitChar (Nat.mod_lt n (by omega))]
      omega

theorem natVal_cons_zero (rest : List Char) : natVal ('0' :: rest) = natVal rest := by
  unfold natVal
  rfl

theorem natVal_replicate_zero (z : ℕ) (ds : List Char) :
    natVal (List.replicate z '0' ++ ds) = natVal ds := by
  induction z with
  | zero => simp
  | succ z ihz =>
    rw [List.replicate_succ, List.cons_append, natVal_cons_zero]
    exact ihz

theorem natDigits_length_le :
    ∀ (n k : ℕ), 1 ≤ k → n < 10 ^ k → (natDigits n).length ≤ k := by
  intro n
  induction n using Nat.strong_induction_on with
  | _ n ih =>
    intro k hk hn
    rw [natDigits_eq]
    by_cases h10 : n < 10
    · rw [if_pos h10]; simp; omega
    · rw [if_neg h10]
      rw [List.length_append, List.length_cons, List.length_nil]
      have hk2 : 2 ≤ k := by
        by_contra hcon
        have hk1 : k = 1 := by omega
        rw [hk1] at hn
        simp at hn
        omega
      have hdiv : n / 10 < 10 ^ (k - 1) := by
        rw [Nat.div_lt_iff_lt_mul (by omega : 0 < 10)]
        have : 10 ^ (k - 1) * 10 = 10 ^ k := by
          rw [← pow_succ]
          congr 1
          omega
        omega
      have := ih (n / 10) (Nat.div_lt_self (by omega) (by omega)) (k - 1) (by omega) hdiv
      omega

theorem padNat_length {k v : ℕ} (hk : 1 ≤ k) (hv : v < 10 ^ k) :
    (padNat k v).length = k := by
  unfold padNat
  rw [List.length_append, List.length_replicate]
  have := natDigits_length_le v k hk hv
  omega

theorem padNat_all_digit (k v : ℕ) : ∀ c ∈ padNat k v, isDigitCh c = true := by
  intro c hc
  unfold padNat at hc
  rcases List.mem_append.mp hc with h1 | h1
  · have := List.eq_of_mem_replicate h1
    subst this
    decide
  · exact natDigits_all_digit v c h1

theorem natVal_padNat (k v : ℕ) : natVal (padNat k v) = v := by
  unfold padNat
  rw [natVal_replicate_zero]
  exact natVal_natDigits v

theorem takeWhile_all_append {p : Char → Bool} :
    ∀ (ds rest : List Char), (∀ c ∈ ds, p c = true) →
      (∀ c0, rest.head? = some c0 → p c0 = false) →
      (ds ++ rest).takeWhile p = ds ∧ (ds ++ rest).dropWhile p = rest := by
  intro ds
  induction ds with
  | nil =>
    intro rest _ hrest
    simp only [List.nil_append]
    cases rest with
    | nil => simp
    | cons c0 r =>
      have := hrest c0 (by simp)
      constructor
      · rw [List.takeWhile_cons, this]
        simp
      · rw [List.dropWhile_cons, this]
        simp
  | cons d ds2 ih =>
    intro rest hall hrest
    have hd : p d = true := hall d (by simp)
    obtain ⟨iht, ihd⟩ := ih rest (fun c hc => hall c (by simp [hc])) hrest
    constructor
    · rw [List.cons_append, List.takeWhile_cons, hd]
      simp [iht]
    · rw [List.cons_append, List.dropWhile_cons, hd]
      simp [ihd]

theorem digit_not_ws {c : Char} (h : isDigitCh c = true) : isWs c = false := by
  by_contra hcon
  rw [Bool.not_eq_false] at hcon
  unfold isWs at hcon
  simp only [Bool.or_eq_true, decide_eq_true_eq] at hcon
  rcases hcon with ((((h1 | h1) | h1) | h1) | h1) | h1 <;>
    (subst h1; exact absurd h (by decide))

theorem digit_ne_char {c x : Char} (h : isDigitCh c = true)
    (hx : isDigitCh x = false) : c ≠ x := by
  intro he
  subst he
  rw [h] at hx
  cases hx

theorem takeWhile_all {p : Char → Bool} (ds : List Char)
    (hall : ∀ c ∈ ds, p c = true) :
    ds.takeWhile p = ds ∧ ds.dropWhile p = [] := by
  have h := takeWhile_all_append ds [] hall (by intro c0 hc0; simp at hc0)
  simpa using h

theorem inf_not_prefixOf {c : Char} (h : isDigitCh c = true) (r : List Char) :
    (String.toList "Infinity").isPrefixOf (c :: r) = false := by
  have hne : ('I' == c) = false := by
    have hcne : c ≠ 'I' := digit_ne_char h (by decide)
    exact beq_eq_false_iff_ne.mpr (fun he => hcne he.symm)
  rw [show String.toList "Infinity" = 'I' :: String.toList "nfinity" from rfl]
  show ('I' == c && (String.toList "nfinity").isPrefixOf r) = false
  rw [hne, Bool.false_and]

theorem dropWhile_ws_digits {d : Char} {ds : List Char} (hd : isDigitCh d = true) :
    (d :: ds).dropWhile isWs = d :: ds := by
  rw [List.dropWhile_cons, digit_not_ws hd]
  simp

theorem parseFloat_digits (ds : List Char) (hne : ds ≠ [])
    (hall : ∀ c ∈ ds, isDigitCh c = true) :
    parseFloatJS ds = .num ⟨(natVal ds : ℤ), 0⟩ := by
  cases ds with
  | nil => exact absurd rfl hne
  | cons d ds2 =>
    have hd : isDigitCh d = true := hall d (by simp)
    unfold parseFloatJS
    rw [dropWhile_ws_digits hd]
    simp only [pfSign]
    rw [if_neg (digit_ne_char hd (by decide)), if_neg (digit_ne_char hd (by decide))]
    unfold pfBody
    rw [inf_not_prefixOf hd ds2]
    simp only [Bool.false_eq_true, if_false]
    obtain ⟨ht, hdr⟩ := takeWhile_all (d :: ds2) hall
    unfold parseMant
    simp only [ht, hdr]
    rw [if_neg (by simp)]
    simp only [pfFrac, applyExp]


theorem parseFloat_digits_point (ds fs : List Char) (hdne : ds ≠ []) (_hfne : fs ≠ [])
    (hdall : ∀ c ∈ ds, isDigitCh c = true) (hfall : ∀ c ∈ fs, isDigitCh c = true) :
    parseFloatJS (ds ++ '.' :: fs) =
      .num ⟨(natVal ds * 10 ^ fs.length + natVal fs : ℤ), fs.length⟩ := by
  obtain ⟨htake, hdrop⟩ := takeWhile_all_append (p := isDigitCh) ds ('.' :: fs) hdall
    (by intro c0 hc0; simp at hc0; subst hc0; decide)
  obtain ⟨hftake, hfdrop⟩ := takeWhile_all fs hfall
  cases ds with
  | nil => exact absurd rfl hdne
  | cons d ds2 =>
    have hd : isDigitCh d = true := hdall d (by simp)
    have hweq : (d :: ds2) ++ '.' :: fs = d :: (ds2 ++ '.' :: fs) := by simp
    unfold parseFloatJS
    rw [hweq]
    rw [dropWhile_ws_digits hd]
    simp only [pfSign]
    rw [if_neg (digit_ne_char hd (by decide)), if_neg (digit_ne_char hd (by decide))]
    unfold pfBody
    rw [inf_not_prefixOf hd (ds2 ++ '.' :: fs)]
    simp only [Bool.false_eq_true, if_false]
    unfold parseMant
    rw [← hweq]
    simp only [htake, hdrop]
    rw [if_neg (by simp)]
    simp only [pfFrac, if_true, hftake, hfdrop]
    simp only [applyExp]

theorem parseFloat_fmtDecPos (m e : ℕ) :
    parseFloatJS (fmtDecPos m e) = .num ⟨(m : ℤ), e⟩ := by
  unfold fmtDecPos
  by_cases he : e = 0
  · rw [if_pos he]
    rw [parseFloat_digits (natDigits m) (natDigits_ne_nil m) (natDigits_all_digit m)]
    rw [natVal_natDigits, he]
  · rw [if_neg he]
    have hk1 : 1 ≤ e := by omega
    have hmod : m % 10 ^ e < 10 ^ e := Nat.mod_lt m (by positivity)
    rw [parseFloat_digits_point (natDigits (m / 10 ^ e)) (padNat e (m % 10 ^ e))
      (natDigits_ne_nil _)
      (by unfold padNat; simp [natDigits_ne_nil])
      (natDigits_all_digit _) (padNat_all_digit e _)]
    rw [padNat_length hk1 hmod, natVal_natDigits, natVal_padNat]
    have harith : (m / 10 ^ e) * 10 ^ e + m % 10 ^ e = m := by
      have h1 := Nat.div_add_mod m (10 ^ e)
      have h2 : 10 ^ e * (m / 10 ^ e) = (m / 10 ^ e) * 10 ^ e := Nat.mul_comm _ _
      omega
    congr 1
    have hz : ((m / 10 ^ e : ℕ) : ℤ) * ((10 : ℤ) ^ e) + ((m % 10 ^ e : ℕ) : ℤ) =
        (m : ℤ) := by exact_mod_cast harith
    rw [← hz]

theorem parseFloat_fmtDec (d : Dec) (h : 0 ≤ d.m) :
    parseFloatJS (fmtDec d) = .num ⟨d.m, d.e⟩ := by
  unfold fmtDec
  rw [if_neg (by omega)]
  rw [parseFloat_fmtDecPos d.m.natAbs d.e]
  congr 2
  exact Int.natAbs_of_nonneg h

theorem jsOrZero_num (d : Dec) :
    jsOrZero (.num d) = if d.m = 0 then jzero else .num d := by
  unfold jsOrZero jsTruthy
  by_cases h : d.m = 0
  · simp [h]
  · simp [h]

theorem fmtDecPos_chars (m e : ℕ) :
    ∀ c ∈ fmtDecPos m e, isDigitCh c = true ∨ c = '.' := by
  intro c hc
  unfold fmtDecPos at hc
  by_cases he : e = 0
  · rw [if_pos he] at hc
    exact Or.inl (natDigits_all_digit m c hc)
  · rw [if_neg he] at hc
    rcases List.mem_append.mp hc with h1 | h1
    · exact Or.inl (natDigits_all_digit _ c h1)
    · rcases List.mem_cons.mp h1 with h2 | h2
      · exact Or.inr h2
      · exact Or.inl (padNat_all_digit e _ c h2)

theorem fmtDecPos_ne_nil (m e : ℕ) : fmtDecPos m e ≠ [] := by
  unfold fmtDecPos
  by_cases he : e = 0
  · rw [if_pos he]; exact natDigits_ne_nil m
  · rw [if_neg he]; simp [natDigits_ne_nil]

theorem splitTopLevel_mem_length {cs p : List Char} (h : p ∈ splitTopLevel cs) :
    p.length ≤ cs.length := by
  have := splitAux_mem_length cs 0 [] p h
  simpa using this

theorem findClose_lt_length {s : List Char} {j : ℕ} (h : findClose s = some j) :
    j < s.length := by
  have := (findCloseAux_some (w := s) (d := 0) (i := 0) h).2.1
  simpa using this

theorem piece_length_lt {s : List Char} {j : ℕ} {p : List Char}
    (hj : findClose (trim s) = some j)
    (hp : p ∈ splitTopLevel (((trim s).take j).drop 1)) :
    p.length + 1 < s.length := by
  have h2 : j < (trim s).length := findClose_lt_length hj
  have h3 : (trim s).length ≤ s.length := length_trim_le s
  rcases Nat.eq_zero_or_pos j with hj0 | hjpos
  · subst hj0
    rw [List.take_zero, List.drop_nil] at hp
    simp [show splitTopLevel ([] : List Char) = [] from rfl] at hp
  · have h1 := splitTopLevel_mem_length hp
    rw [List.length_drop, List.length_take, Nat.min_eq_left (le_of_lt h2)] at h1
    omega

theorem parseNodeF_irrel :
    ∀ (f g : ℕ) (s : List Char), s.length < f → s.length < g →
      parseNodeF f s = parseNodeF g s := by
  intro f
  induction f with
  | zero => intro g s hf; omega
  | succ f ihf =>
    intro g s hf hg
    cases g with
    | zero => omega
    | succ g =>
      simp only [parseNodeF]
      by_cases hh : (trim s).head? = some '('
      · rw [if_pos hh, if_pos hh]
        cases hj : findClose (trim s) with
        | none => rfl
        | some j =>
          show internalFinish
              ((splitTopLevel (((trim s).take j).drop 1)).map (parseNodeF f))
              ((trim s).drop (j + 1)) =
            internalFinish
              ((splitTopLevel (((trim s).take j).drop 1)).map (parseNodeF g))
              ((trim s).drop (j + 1))
          congr 1
          apply List.map_congr_left
          intro p hp
          have := piece_length_lt hj hp
          exact ihf g p (by omega) (by omega)
      · rw [if_neg hh, if_neg hh]

theorem parseNode_fuel {f : ℕ} {s : List Char} (h : s.length < f) :
    parseNodeF f s = parseNode s :=
  parseNodeF_irrel f (s.length + 1) s h (by omega)

theorem parseNode_internal {s : List Char} {j : ℕ}
    (hh : (trim s).head? = some '(') (hj : findClose (trim s) = some j) :
    parseNode s =
      internalFinish ((splitTopLevel (((trim s).take j).drop 1)).map parseNode)
        ((trim s).drop (j + 1)) := by
  unfold parseNode
  simp only [parseNodeF]
  rw [if_pos hh, hj]
  show internalFinish
      ((splitTopLevel (((trim s).take j).drop 1)).map (parseNodeF s.length))
      ((trim s).drop (j + 1)) = _
  congr 1
  apply List.map_congr_left
  intro p hp
  have := piece_length_lt hj hp
  exact parseNode_fuel (by omega)

theorem parseNode_fallback {s : List Char}
    (hh : (trim s).head? = some '(') (hj : findClose (trim s) = none) :
    parseNode s = .node [] none jzero := by
  unfold parseNode
  simp only [parseNodeF]
  rw [if_pos hh, hj]

theorem parseNode_leaf {s : List Char} (hh : ¬(trim s).head? = some '(') :
    parseNode s = leafFinish (trim s) := by
  unfold parseNode
  simp only [parseNodeF]
  rw [if_neg hh]

theorem idxOf_spec (c : Char) (l : List Char) :
    idxOf c l = if c ∈ l then some (l.takeWhile (fun x => !(x == c))).length
      else none := by
  induction l with
  | nil => simp [idxOf]
  | cons a as ih =>
    simp only [idxOf]
    by_cases hac : a = c
    · subst hac
      rw [if_pos rfl, if_pos (by simp)]
      rw [List.takeWhile_cons]
      simp
    · rw [if_neg hac, ih]
      by_cases hcm : c ∈ as
      · rw [if_pos hcm, if_pos (by simp [hcm])]
        rw [List.takeWhile_cons]
        have hb : (!(a == c)) = true := by simp [hac]
        rw [hb]
        simp
      · rw [if_neg hcm, if_neg (by
          simp only [List.mem_cons, not_or]
          exact ⟨fun he => hac he.symm, hcm⟩)]
        rfl

/-- **C7.** Rendering the tree parsed from the concrete Newick string
`((A:0.1,B:0.2):0.0);` produces exactly the diagram in which the single top
node's line uses the connector `└── `, leaf `A`'s line uses `├── ` and is
annotated `(0.1000)`, leaf `B`'s line uses `└── ` and is annotated
`(0.2000)`, with `A` and `B` nested under the top node (the inner internal
node of the wrapper parentheses, itself nested under the top placeholder
node).  Stated as the full output string, which pins every connector,
annotation and nesting level. -/
theorem c7_render_concrete :
    renderTreeAscii (parseNewick (String.toList "((A:0.1,B:0.2):0.0);")) [] true =
      String.toList
        "└── Internal\n    └── Internal\n        ├── A (0.1000)\n        └── B (0.2000)\n" := by
  rfl

/-- **C2.** For every input string that, after the trailing-semicolon trim
(and JavaScript trimming), begins with `(` but has no closing parenthesis
matching that first `(` (no position where the character is `)` and the
parenthesis balance returns to zero), `parseNewick` does not fail: it
returns the best-effort empty fallback node `{children: [], name: null,
length: 0}`; it is a pure function, so two runs on the same input agree;
and in particular `parseNewick "(A:1,B:2"` is that fallback node. -/
theorem c2_unbalanced_fallback (s : List Char)
    (hh : (trim (stripSemi s)).head? = some '(')
    (hnone : ∀ m, m < (trim (stripSemi s)).length →
      ¬((trim (stripSemi s)).getD m ' ' = ')' ∧
        bal ((trim (stripSemi s)).take (m + 1)) = 0)) :
    parseNewick s = .node [] none jzero ∧
      parseNewick s = parseNewick s ∧
      parseNewick (String.toList "(A:1,B:2") = .node [] none jzero := by
  refine ⟨?_, rfl, by rfl⟩
  have hjt : findClose (trim (stripSemi s)) = none := by
    cases hj : findClose (trim (stripSemi s)) with
    | none => rfl
    | some j =>
      obtain ⟨_, hj2, hj3, hj4, _⟩ :=
        findCloseAux_some (w := trim (stripSemi s)) (d := 0) (i := 0) hj
      simp only [Nat.sub_zero, zero_add] at hj2 hj3 hj4
      exact absurd ⟨hj3, hj4⟩ (hnone j hj2)
  have hidem : trim (trim (stripSemi s)) = trim (stripSemi s) := trim_idem (stripSemi s)
  unfold parseNewick
  exact parseNode_fallback (by rw [hidem]; exact hh) (by rw [hidem]; exact hjt)

/-- Witness for C2 at the concrete malformed input `"(A:1,B:2"`. -/
theorem c2_unbalanced_fallback_witness :
    parseNewick (String.toList "(A:1,B:2") = .node [] none jzero :=
  (c2_unbalanced_fallback (String.toList "(A:1,B:2") (by rfl) (by decide)).1

/-- **C9.** `parseNode` (and hence `parseNewick`) terminates on every finite
input: every child substring that the parser recurses into — a member of
the depth-0 comma split of the text strictly between the first `(` of the
trimmed input and its matching `)` — is strictly shorter than the input
string, and consequently fuel `length + 1` is enough for the fuelled
recursion: `parseNodeF f s` equals the fully parsed `parseNode s` for any
`f > length s`, so the fuel-exhaustion branch is never reached. -/
theorem c9_termination (s : List Char) (j : ℕ) (p : List Char)
    (hj : findClose (trim s) = some j)
    (hp : p ∈ splitTopLevel (((trim s).take j).drop 1)) :
    p.length < s.length ∧ ∀ f, s.length < f → parseNodeF f s = parseNode s := by
  constructor
  · have := piece_length_lt hj hp
    omega
  · intro f hf
    exact parseNode_fuel hf

/-- Witness for C9: in `"(A,B)"` the child piece `"A"` is strictly shorter
than the input. -/
theorem c9_termination_witness :
    (String.toList "A").length < (String.toList "(A,B)").length :=
  (c9_termination (String.toList "(A,B)") 4 (String.toList "A")
    (by rfl) (by decide)).1

/-- **C8.** The parser strips exactly one trailing `;` before parsing: for
every string `s` that does not end in `;`, `parseNewick (s ++ ";")` equals
`parseNewick s`; and the trim removes a single semicolon only, never more:
`stripSemi (s ++ ";;") = s ++ ";"`. -/
theorem c8_single_semicolon :
    (∀ s : List Char, s.getLast? ≠ some ';' →
        parseNewick (s ++ [';']) = parseNewick s) ∧
      (∀ s : List Char, stripSemi (s ++ [';', ';']) = s ++ [';']) := by
  constructor
  · intro s hs
    unfold parseNewick
    have h1 : stripSemi (s ++ [';']) = s := by
      unfold stripSemi
      rw [if_pos (List.getLast?_concat s), List.dropLast_concat]
    have h2 : stripSemi s = s := by
      unfold stripSemi
      rw [if_neg hs]
    rw [h1, h2]
  · intro s
    unfold stripSemi
    have he : s ++ [';', ';'] = (s ++ [';']) ++ [';'] := by simp
    rw [he, if_pos (List.getLast?_concat (s ++ [';'])), List.dropLast_concat]

/-- Witness for C8 at `s = "A"`. -/
theorem c8_single_semicolon_witness :
    parseNewick (String.toList "A" ++ [';']) = parseNewick (String.toList "A") :=
  c8_single_semicolon.1 (String.toList "A") (by decide)

theorem jsOrZero_ne_nan (n : JSNum) : jsOrZero n ≠ .nan := by
  unfold jsOrZero
  by_cases h : jsTruthy n = true
  · rw [if_pos h]
    intro he
    subst he
    exact absurd h (by decide)
  · rw [if_neg h]
    intro he
    simp [jzero] at he

theorem internalFinish_children (ch : List JTree) (ap : List Char) :
    (internalFinish ch ap).children = ch := by
  unfold internalFinish
  split
  · split
    · rfl
    · rfl
  · rfl

theorem internalFinish_ne_nan (ch : List JTree) (ap : List Char) :
    (internalFinish ch ap).length ≠ .nan := by
  unfold internalFinish
  split
  · split
    · exact jsOrZero_ne_nan _
    · exact jsOrZero_ne_nan _
  · intro he
    simp [JTree.length, jzero] at he

theorem leafFinish_children (s : List Char) : (leafFinish s).children = [] := by
  unfold leafFinish
  split
  · split
    · rfl
    · rfl
  · rfl

theorem leafFinish_ne_nan (s : List Char) : (leafFinish s).length ≠ .nan := by
  unfold leafFinish
  split
  · split
    · exact jsOrZero_ne_nan _
    · intro he
      simp [JTree.length, jzero] at he
  · intro he
    simp [JTree.length, jzero] at he

theorem allNodes_node (cs : List JTree) (nm : Option (List Char)) (len : JSNum) :
    allNodes (.node cs nm len) = .node cs nm len :: allNodesL cs := rfl

theorem mem_allNodesL {t : JTree} :
    ∀ {cs : List JTree}, t ∈ allNodesL cs ↔ ∃ c ∈ cs, t ∈ allNodes c := by
  intro cs
  induction cs with
  | nil => simp [allNodesL]
  | cons c rest ih =>
    show t ∈ allNodes c ++ allNodesL rest ↔ _
    rw [List.mem_append, ih]
    constructor
    · rintro (h | ⟨c2, hc2, ht2⟩)
      · exact ⟨c, by simp, h⟩
      · exact ⟨c2, by simp [hc2], ht2⟩
    · rintro ⟨c2, hc2, ht2⟩
      rcases List.mem_cons.mp hc2 with rfl | hc3
      · exact Or.inl ht2
      · exact Or.inr ⟨c2, hc3, ht2⟩

/-- **C10.** For every input string, every node in the tree returned by
`parseNewick` has a branch length that is a number and never `NaN`:
whenever the branch-length text is absent or fails to parse, the `|| 0`
coercion replaces the `NaN` by `0`, so downstream rendering never formats
`NaN`. -/
theorem c10_no_nan (s : List Char) (t : JTree)
    (ht : t ∈ allNodes (parseNewick s)) : t.length ≠ JSNum.nan := by
  suffices H : ∀ n (s0 : List Char), s0.length ≤ n →
      ∀ t0 ∈ allNodes (parseNode s0), t0.length ≠ JSNum.nan by
    exact H (trim (stripSemi s)).length (trim (stripSemi s)) (le_refl _) t ht
  intro n
  induction n using Nat.strong_induction_on with
  | _ n ih =>
    intro s0 hlen t0 ht0
    by_cases hh : (trim s0).head? = some '('
    · cases hj : findClose (trim s0) with
      | none =>
        rw [parseNode_fallback hh hj, allNodes_node] at ht0
        simp only [allNodesL] at ht0
        simp at ht0
        subst ht0
        intro he
        simp [JTree.length, jzero] at he
      | some j =>
        rw [parseNode_internal hh hj] at ht0
        cases hfin : internalFinish
            ((splitTopLevel (((trim s0).take j).drop 1)).map parseNode)
            ((trim s0).drop (j + 1)) with
        | node cs2 nm2 len2 =>
          rw [hfin, allNodes_node] at ht0
          have hch : cs2 = (splitTopLevel (((trim s0).take j).drop 1)).map parseNode := by
            have h1 := internalFinish_children
              ((splitTopLevel (((trim s0).take j).drop 1)).map parseNode)
              ((trim s0).drop (j + 1))
            rw [hfin] at h1
            exact h1
          rcases List.mem_cons.mp ht0 with h1 | h1
          · subst h1
            have h2 := internalFinish_ne_nan
              ((splitTopLevel (((trim s0).take j).drop 1)).map parseNode)
              ((trim s0).drop (j + 1))
            rw [hfin] at h2
            exact h2
          · rw [hch] at h1
            obtain ⟨c, hc, htc⟩ := mem_allNodesL.mp h1
            obtain ⟨p, hp, rfl⟩ := List.mem_map.mp hc
            have hlt := piece_length_lt hj hp
            exact ih p.length (by omega) p (le_refl _) t0 htc
    · rw [parseNode_leaf hh] at ht0
      cases hfin : leafFinish (trim s0) with
      | node cs2 nm2 len2 =>
        rw [hfin, allNodes_node] at ht0
        have hc2 : cs2 = [] := by
          have h1 := leafFinish_children (trim s0)
          rw [hfin] at h1
          exact h1
        subst hc2
        simp only [allNodesL] at ht0
        simp at ht0
        subst ht0
        have h2 := leafFinish_ne_nan (trim s0)
        rw [hfin] at h2
        exact h2

/-- Witness for C10: the tree parsed from `"A:x"` (whose branch-length text
is unparsable) is itself a node of its `allNodes` list, and its length is
not `NaN`. -/
theorem c10_no_nan_witness :
    (parseNewick (String.toList "A:x")).length ≠ JSNum.nan :=
  c10_no_nan (String.toList "A:x") (parseNewick (String.toList "A:x"))
    (List.Mem.head _)

theorem leafFinish_pos {t : List Char} {k : ℕ} (h : idxOf ':' t = some k)
    (hk : 0 < k) :
    leafFinish t = .node [] (some (trim (t.take k)))
      (jsOrZero (parseFloatJS (t.drop (k + 1)))) := by
  unfold leafFinish
  rw [h]
  show (if 0 < k then
      JTree.node [] (some (trim (t.take k))) (jsOrZero (parseFloatJS (t.drop (k + 1))))
    else JTree.node [] (some (trim t)) jzero) = _
  rw [if_pos hk]

theorem leafFinish_zero {t : List Char} {k : ℕ} (h : idxOf ':' t = some k)
    (hk : ¬0 < k) : leafFinish t = .node [] (some (trim t)) jzero := by
  unfold leafFinish
  rw [h]
  show (if 0 < k then
      JTree.node [] (some (trim (t.take k))) (jsOrZero (parseFloatJS (t.drop (k + 1))))
    else JTree.node [] (some (trim t)) jzero) = _
  rw [if_neg hk]

theorem leafFinish_noColon {t : List Char} (h : idxOf ':' t = none) :
    leafFinish t = .node [] (some (trim t)) jzero := by
  unfold leafFinish
  rw [h]

theorem internalFinish_pos {ap : List Char} {k : ℕ} (ch : List JTree)
    (h : idxOf ':' ap = some k) (hk : 0 < k) :
    internalFinish ch ap = .node ch (some (orInternal (trim (ap.take k))))
      (jsOrZero (parseFloatJS (ap.drop (k + 1)))) := by
  unfold internalFinish
  rw [h]
  show (if 0 < k then
      JTree.node ch (some (orInternal (trim (ap.take k))))
        (jsOrZero (parseFloatJS (ap.drop (k + 1))))
    else JTree.node ch (some internalLabel) (jsOrZero (parseFloatJS (ap.drop 1)))) = _
  rw [if_pos hk]

theorem internalFinish_zero {ap : List Char} {k : ℕ} (ch : List JTree)
    (h : idxOf ':' ap = some k) (hk : ¬0 < k) :
    internalFinish ch ap = .node ch (some internalLabel)
      (jsOrZero (parseFloatJS (ap.drop 1))) := by
  unfold internalFinish
  rw [h]
  show (if 0 < k then
      JTree.node ch (some (orInternal (trim (ap.take k))))
        (jsOrZero (parseFloatJS (ap.drop (k + 1))))
    else JTree.node ch (some internalLabel) (jsOrZero (parseFloatJS (ap.drop 1)))) = _
  rw [if_neg hk]

theorem internalFinish_noColon {ap : List Char} (ch : List JTree)
    (h : idxOf ':' ap = none) :
    internalFinish ch ap = .node ch (some (orInternal (trim ap))) jzero := by
  unfold internalFinish
  rw [h]

theorem take_takeWhile (t : List Char) (p : Char → Bool) :
    t.take (t.takeWhile p).length = t.takeWhile p :=
  (List.prefix_iff_eq_take.mp (List.takeWhile_prefix p)).symm

/-- **C5 counterexample.**  The claim says a leaf substring is always split
at the first `:` (name to the left taken verbatim, length parsed from the
right, covering in particular a leading `:` with empty name).  The code
splits only when the first `:` has a positive index: on `":5"` it returns
the whole string `":5"` as the name with length `0` (the claim would
require name `""` and length `5`), and on `"A :1"` it trims the name to
`"A"` (the claim's verbatim reading would require `"A "`). -/
theorem c5_leaf_counterexample :
    (parseNewick (String.toList ":5")).name = some (String.toList ":5") ∧
      (parseNewick (String.toList ":5")).length = jzero ∧
      (parseNewick (String.toList "A :1")).name = some (String.toList "A") := by
  refine ⟨by rfl, by rfl, by rfl⟩

/-- **C5 (amended).** For every input substring whose trimmed form does not
start with `(` the parser returns a leaf node, and: when the trimmed string
contains a `:` that is not its first character, the name is the trimmed
text to the left of the first `:` and the branch length is the number
parsed from the text to its right (`0` when malformed, via the `|| 0`
coercion); when the `:` is absent or is the very first character, the
whole trimmed string is the name, verbatim, and the branch length is `0`. -/
theorem c5_leaf_amended (s : List Char) (hh : ¬(trim s).head? = some '(') :
    ((':' ∈ trim s ∧ (trim s).takeWhile (fun x => !(x == ':')) ≠ []) →
      parseNode s = .node []
        (some (trim ((trim s).takeWhile (fun x => !(x == ':')))))
        (jsOrZero (parseFloatJS
          ((trim s).drop (((trim s).takeWhile (fun x => !(x == ':'))).length + 1))))) ∧
    ((¬(':' ∈ trim s) ∨ (trim s).takeWhile (fun x => !(x == ':')) = []) →
      parseNode s = .node [] (some (trim s)) jzero) := by
  rw [parseNode_leaf hh]
  by_cases hcm : ':' ∈ trim s
  · have hidx : idxOf ':' (trim s) =
        some ((trim s).takeWhile (fun x => !(x == ':'))).length := by
      rw [idxOf_spec, if_pos hcm]
    by_cases hbe : (trim s).takeWhile (fun x => !(x == ':')) = []
    · have hk : ¬0 < ((trim s).takeWhile (fun x => !(x == ':'))).length := by
        rw [hbe]; simp
      rw [leafFinish_zero hidx hk]
      constructor
      · rintro ⟨_, hne⟩
        exact absurd hbe hne
      · intro _
        rw [trim_idem]
    · have hk : 0 < ((trim s).takeWhile (fun x => !(x == ':'))).length :=
        List.length_pos.mpr hbe
      rw [leafFinish_pos hidx hk]
      constructor
      · intro _
        rw [take_takeWhile]
      · rintro (hc | hb2)
        · exact absurd hcm hc
        · exact absurd hb2 hbe
  · have hidx : idxOf ':' (trim s) = none := by
      rw [idxOf_spec, if_neg hcm]
    rw [leafFinish_noColon hidx]
    constructor
    · rintro ⟨hc, _⟩
      exact absurd hc hcm
    · intro _
      rw [trim_idem]

/-- Witness for the amended C5 at the leaf `"A:0.5"`. -/
theorem c5_leaf_amended_witness :
    parseNode (String.toList "A:0.5") =
      .node [] (some (String.toList "A")) (.num ⟨5, 1⟩) := by
  have h := (c5_leaf_amended (String.toList "A:0.5") (by decide)).1 (by decide)
  rw [h]
  rfl

/-- **C4 counterexample.** The claim says the name of an internal node is
the text of the remainder `r` before the first `:` (placeholder only when
that text is empty).  On `"(A) :1"` the remainder is `" :1"`, whose text
before `:` is the nonempty `" "`, yet the code trims it to empty and
produces the placeholder label `Internal`, not `" "`. -/
theorem c4_internal_counterexample :
    (parseNewick (String.toList "(A) :1")).name = some internalLabel ∧
      internalLabel ≠ String.toList " " ∧
      (parseNewick (String.toList "(A) :1")).length = .num ⟨1, 0⟩ := by
  refine ⟨by rfl, by decide, by rfl⟩

/-- **C4 (amended).** For every internal-node substring with balanced
parentheses (trimmed, starting with `(`, nonnegative prefix balances,
total balance `0`), the scan finds the matching `)` at some index `j`, and
with `r` the remainder after it: if `r` contains `:`, the parsed node's
name is the trimmed text of `r` before the first `:` — or the placeholder
internal label when that trimmed text is empty — and its branch length is
the number parsed from the text after the first `:` (`0` when absent or
unparsable, via `|| 0`); if `r` contains no `:`, the name is the whole
trimmed `r`, or the placeholder when `trim r` is empty, and the length is
`0`. -/
theorem c4_internal_amended (s : List Char)
    (hh : (trim s).head? = some '(')
    (hin : ∀ n, n ≤ (trim s).length → 0 ≤ bal ((trim s).take n))
    (hb : bal (trim s) = 0) :
    ∃ j, findClose (trim s) = some j ∧
      ((':' ∈ (trim s).drop (j + 1) →
        (parseNode s).name = some (orInternal (trim
          (((trim s).drop (j + 1)).takeWhile (fun x => !(x == ':'))))) ∧
        (parseNode s).length = jsOrZero (parseFloatJS
          (((trim s).drop (j + 1)).drop
            ((((trim s).drop (j + 1)).takeWhile (fun x => !(x == ':'))).length + 1)))) ∧
      (¬(':' ∈ (trim s).drop (j + 1)) →
        (parseNode s).name = some (orInternal (trim ((trim s).drop (j + 1)))) ∧
        (parseNode s).length = jzero)) := by
  have hin2 : ∀ n, 0 ≤ bal ((trim s).take n) := by
    intro n
    rcases le_or_lt n (trim s).length with h | h
    · exact hin n h
    · rw [List.take_of_length_le (le_of_lt h)]
      omega
  obtain ⟨j, hj, _, _, _, _⟩ := findClose_balanced (trim s) hh hin2 hb
  refine ⟨j, hj, ?_, ?_⟩
  · intro hcm
    have hidx : idxOf ':' ((trim s).drop (j + 1)) =
        some (((trim s).drop (j + 1)).takeWhile (fun x => !(x == ':'))).length := by
      rw [idxOf_spec, if_pos hcm]
    rw [parseNode_internal hh hj]
    by_cases hbe : ((trim s).drop (j + 1)).takeWhile (fun x => !(x == ':')) = []
    · have hk : ¬0 < (((trim s).drop (j + 1)).takeWhile (fun x => !(x == ':'))).length := by
        rw [hbe]; simp
      rw [internalFinish_zero _ hidx hk]
      rw [hbe]
      constructor
      · show some internalLabel = some (orInternal (trim []))
        rfl
      · show jsOrZero (parseFloatJS (((trim s).drop (j + 1)).drop 1)) = _
        simp
    · have hk : 0 < (((trim s).drop (j + 1)).takeWhile (fun x => !(x == ':'))).length :=
        List.length_pos.mpr hbe
      rw [internalFinish_pos _ hidx hk]
      rw [take_takeWhile]
      exact ⟨rfl, rfl⟩
  · intro hcm
    have hidx : idxOf ':' ((trim s).drop (j + 1)) = none := by
      rw [idxOf_spec, if_neg hcm]
    rw [parseNode_internal hh hj]
    rw [internalFinish_noColon _ hidx]
    exact ⟨rfl, rfl⟩

/-- Witness for the amended C4 at `"(A)N:2.5"`: the internal node's label
and branch length are read from the remainder after the matching `)`. -/
theorem c4_internal_amended_witness :
    (parseNode (String.toList "(A)N:2.5")).name = some (String.toList "N") ∧
      (parseNode (String.toList "(A)N:2.5")).length = .num ⟨25, 1⟩ := by
  obtain ⟨j, hj, hcol, _⟩ := c4_internal_amended (String.toList "(A)N:2.5")
    (by rfl) (by decide) (by rfl)
  have hj2 : findClose (trim (String.toList "(A)N:2.5")) = some 2 := by rfl
  rw [hj2] at hj
  have hjv : j = 2 := by
    injection hj with h
    omega
  subst hjv
  obtain ⟨hn, hl⟩ := hcol (by decide)
  constructor
  · rw [hn]; rfl
  · rw [hl]; rfl

/-- **C3.** For every input substring that begins with `(` and has balanced
parentheses, the parser's scan finds exactly the closing `)` matching the
first `(`: the first index `j` whose character is `)` and whose prefix
balance (through `j`) is `0`, with the balance staying at least `1`
strictly inside — the defining property of the matching parenthesis.  The
children split cuts the text at exactly the commas lying at parenthesis
depth `0` (`topSplit`), so a comma inside a nested child is never a split
point, each piece being trimmed and empty pieces dropped.  An internal
node with zero children is tolerated: `"()"` parses to a node with an
empty children list. -/
theorem c3_matching_and_split (s : List Char)
    (hh : s.head? = some '(')
    (hin : ∀ n, n ≤ s.length → 0 ≤ bal (s.take n))
    (hb : bal s = 0) :
    (∃ j, findClose s = some j ∧ j < s.length ∧ s.getD j ' ' = ')' ∧
        bal (s.take (j + 1)) = 0 ∧ ∀ i, 1 ≤ i → i ≤ j → 1 ≤ bal (s.take i)) ∧
      (∀ cs, splitTopLevel cs = ((topSplit cs).map trim).filter (fun p => !p.isEmpty)) ∧
      (parseNewick (String.toList "()")).children = [] := by
  have hin2 : ∀ n, 0 ≤ bal (s.take n) := by
    intro n
    rcases le_or_lt n s.length with h | h
    · exact hin n h
    · rw [List.take_of_length_le (le_of_lt h)]
      omega
  exact ⟨findClose_balanced s hh hin2 hb,
    fun cs => splitTopLevel_eq_topSplit cs, by rfl⟩

/-- Witness for C3 at the balanced input `"(A,(B,C))"`. -/
theorem c3_matching_and_split_witness :
    ∃ j, findClose (String.toList "(A,(B,C))") = some j ∧
      j < (String.toList "(A,(B,C))").length ∧
      (String.toList "(A,(B,C))").getD j ' ' = ')' ∧
      bal ((String.toList "(A,(B,C))").take (j + 1)) = 0 ∧
      ∀ i, 1 ≤ i → i ≤ j → 1 ≤ bal ((String.toList "(A,(B,C))").take i) :=
  (c3_matching_and_split (String.toList "(A,(B,C))") (by rfl) (by decide) (by rfl)).1

theorem lenAnnot_num (q : Dec) :
    lenAnnot (.num q) =
      if q.m ≠ 0 then ' ' :: '(' :: (toFixed4 (.num q) ++ [')']) else [] := by
  unfold lenAnnot
  simp only [jsTruthy]
  by_cases h : q.m = 0
  · rw [if_neg (by simp [h]), if_neg (by simp [h])]
  · rw [if_pos (by simp [h]), if_pos h]

theorem renderChildren_eq (cs : List JTree) (pre : List Char) :
    renderChildren cs pre =
      (cs.mapIdx (fun i c =>
        renderTreeAscii c pre (decide (i = cs.length - 1)))).flatten := by
  induction cs with
  | nil => rfl
  | cons c rest ih =>
    cases rest with
    | nil =>
      show renderTreeAscii c pre true = _
      rw [List.mapIdx_cons]
      simp
    | cons c2 rest2 =>
      show renderTreeAscii c pre false ++ renderChildren (c2 :: rest2) pre = _
      rw [List.mapIdx_cons, List.flatten_cons]
      congr 1
      rw [ih, List.mapIdx_cons, List.flatten_cons, List.mapIdx_cons, List.flatten_cons]
      have e1 : (decide (0 = (c2 :: rest2).length - 1)) =
          (decide (0 + 1 = (c :: c2 :: rest2).length - 1)) := by
        rw [decide_eq_decide]
        simp only [List.length_cons]
        omega
      have e2 : (fun (i : ℕ) (c3 : JTree) =>
            renderTreeAscii c3 pre (decide (i + 1 = (c2 :: rest2).length - 1))) =
          (fun (i : ℕ) (c3 : JTree) =>
            renderTreeAscii c3 pre (decide (i + 1 + 1 = (c :: c2 :: rest2).length - 1))) := by
        funext i c3
        congr 1
        rw [decide_eq_decide]
        simp only [List.length_cons]
        omega
      rw [e1, e2]

theorem fixed4Pos_chars (m e : ℕ) :
    ∀ c ∈ fixed4Pos m e, isDigitCh c = true ∨ c = '.' := by
  intro c hc
  unfold fixed4Pos at hc
  rcases List.mem_append.mp hc with h1 | h1
  · exact Or.inl (natDigits_all_digit _ c h1)
  · rcases List.mem_cons.mp h1 with h2 | h2
    · exact Or.inr h2
    · exact Or.inl (padNat_all_digit 4 _ c h2)

theorem toFixed4_num_chars (q : Dec) :
    ∀ c ∈ toFixed4 (.num q), isDigitCh c = true ∨ c = '.' ∨ c = '-' := by
  intro c hc
  have hx : toFixed4 (.num q) =
      if q.m < 0 then '-' :: fixed4Pos q.m.natAbs q.e
      else fixed4Pos q.m.natAbs q.e := rfl
  rw [hx] at hc
  by_cases h : q.m < 0
  · rw [if_pos h] at hc
    rcases List.mem_cons.mp hc with h2 | h2
    · exact Or.inr (Or.inr h2)
    · rcases fixed4Pos_chars _ _ c h2 with h3 | h3
      · exact Or.inl h3
      · exact Or.inr (Or.inl h3)
  · rw [if_neg h] at hc
    rcases fixed4Pos_chars _ _ c hc with h3 | h3
    · exact Or.inl h3
    · exact Or.inr (Or.inl h3)

/-- **C6.** For every tree node with a finite branch length, the renderer
emits exactly one line for the node — the accumulated ancestor prefix, the
connector `└── ` when the node is last among its siblings and `├── `
otherwise, the display name (placeholder `Internal Node` when the name is
absent or empty), and, exactly when the branch length is non-zero, the
length formatted to 4 decimal places in parentheses — followed by the
children rendered in order with the prefix extended by four spaces after a
last sibling and by the continuation bar `│` plus three spaces otherwise,
the last child receiving the `isLast` flag.  The second conjunct pins
"exactly one line": the output up to the first newline is precisely the
node's own line. -/
theorem c6_renderer (cs : List JTree) (nm : Option (List Char)) (q : Dec)
    (pre : List Char) (isLast : Bool) :
    (renderTreeAscii (.node cs nm (.num q)) pre isLast =
      (pre ++ (if isLast then String.toList "└── " else String.toList "├── ") ++
        dispName nm ++
        (if q.m ≠ 0 then ' ' :: '(' :: (toFixed4 (.num q) ++ [')']) else []) ++
        ['\n']) ++
      (cs.mapIdx (fun i c =>
        renderTreeAscii c
          (pre ++ (if isLast then String.toList "    " else String.toList "│   "))
          (decide (i = cs.length - 1)))).flatten) ∧
    ('\n' ∉ pre → '\n' ∉ dispName nm →
      (renderTreeAscii (.node cs nm (.num q)) pre isLast).takeWhile
          (fun x => !(x == '\n')) =
        pre ++ (if isLast then String.toList "└── " else String.toList "├── ") ++
          dispName nm ++
          (if q.m ≠ 0 then ' ' :: '(' :: (toFixed4 (.num q) ++ [')']) else [])) := by
  have hmain : renderTreeAscii (.node cs nm (.num q)) pre isLast =
      (pre ++ (if isLast then String.toList "└── " else String.toList "├── ") ++
        dispName nm ++
        (if q.m ≠ 0 then ' ' :: '(' :: (toFixed4 (.num q) ++ [')']) else []) ++
        ['\n']) ++
      (cs.mapIdx (fun i c =>
        renderTreeAscii c
          (pre ++ (if isLast then String.toList "    " else String.toList "│   "))
          (decide (i = cs.length - 1)))).flatten := by
    cases cs with
    | nil =>
      show pre ++ (if isLast then String.toList "└── " else String.toList "├── ") ++
          dispName nm ++ lenAnnot (.num q) ++ ['\n'] = _
      rw [lenAnnot_num]
      simp
    | cons c rest =>
      show (pre ++ (if isLast then String.toList "└── " else String.toList "├── ") ++
          dispName nm ++ lenAnnot (.num q) ++ ['\n']) ++
          renderChildren (c :: rest)
            (pre ++ (if isLast then String.toList "    " else String.toList "│   ")) = _
      rw [lenAnnot_num, renderChildren_eq]
  refine ⟨hmain, ?_⟩
  intro hpre hnm
  rw [hmain]
  have hre : (pre ++ (if isLast then String.toList "└── " else String.toList "├── ") ++
        dispName nm ++
        (if q.m ≠ 0 then ' ' :: '(' :: (toFixed4 (.num q) ++ [')']) else []) ++
        ['\n']) ++
      (cs.mapIdx (fun i c =>
        renderTreeAscii c
          (pre ++ (if isLast then String.toList "    " else String.toList "│   "))
          (decide (i = cs.length - 1)))).flatten =
      (pre ++ (if isLast then String.toList "└── " else String.toList "├── ") ++
        dispName nm ++
        (if q.m ≠ 0 then ' ' :: '(' :: (toFixed4 (.num q) ++ [')']) else [])) ++
      ('\n' :: (cs.mapIdx (fun i c =>
        renderTreeAscii c
          (pre ++ (if isLast then String.toList "    " else String.toList "│   "))
          (decide (i = cs.length - 1)))).flatten) := by
    simp
  rw [hre]
  refine (takeWhile_all_append _ _ ?_ ?_).1
  · intro c hc
    rcases List.mem_append.mp hc with h1 | h1
    · rcases List.mem_append.mp h1 with h2 | h2
      · rcases List.mem_append.mp h2 with h3 | h3
        · simp only [Bool.not_eq_eq_eq_not, Bool.not_true, beq_eq_false_iff_ne]
          exact fun he => hpre (he ▸ h3)
        · have hconn : ∀ c2 ∈ (if isLast then String.toList "└── "
              else String.toList "├── "), (!(c2 == '\n')) = true := by
            cases isLast <;> decide
          exact hconn c h3
      · simp only [Bool.not_eq_eq_eq_not, Bool.not_true, beq_eq_false_iff_ne]
        exact fun he => hnm (he ▸ h2)
    · by_cases hq : q.m ≠ 0
      · rw [if_pos hq] at h1
        rcases List.mem_cons.mp h1 with h2 | h2
        · subst h2; decide
        · rcases List.mem_cons.mp h2 with h3 | h3
          · subst h3; decide
          · rcases List.mem_append.mp h3 with h4 | h4
            · rcases toFixed4_num_chars q c h4 with h5 | h5 | h5
              · simp only [Bool.not_eq_eq_eq_not, Bool.not_true, beq_eq_false_iff_ne]
                exact digit_ne_char h5 (by decide)
              · subst h5; decide
              · subst h5; decide
            · have : c = ')' := by simpa using h4
              subst this; decide
      · rw [if_neg hq] at h1
        simp at h1
  · intro c0 hc0
    simp at hc0
    subst hc0
    decide

/-- Witness for C6: a leaf named `A` with length `0.5`, rendered as a last
sibling, yields the single line `└── A (0.5000)`. -/
theorem c6_renderer_witness :
    (renderTreeAscii (.node [] (some (String.toList "A")) (.num ⟨5, 1⟩)) [] true).takeWhile
        (fun x => !(x == '\n')) =
      String.toList "└── A (0.5000)" := by
  have h := (c6_renderer [] (some (String.toList "A")) ⟨5, 1⟩ [] true).2
    (by decide) (by decide)
  rw [h]
  rfl

theorem goodName_spec {x : List Char} (h : goodName x = true) :
    x ≠ [] ∧ trim x = x ∧
      ∀ c ∈ x, c ≠ '(' ∧ c ≠ ')' ∧ c ≠ ',' ∧ c ≠ ':' ∧ c ≠ ';' := by
  unfold goodName at h
  simp only [Bool.and_eq_true, List.all_eq_true, Bool.not_eq_true',
    Bool.not_eq_eq_eq_not, Bool.not_true, decide_eq_true_eq] at h
  obtain ⟨⟨h1, h2⟩, h3⟩ := h
  refine ⟨by simpa using h1, by simpa using h2, ?_⟩
  intro c hc
  have := h3 c hc
  simp only [Bool.or_eq_false_iff, decide_eq_false_iff_not] at this
  exact ⟨this.1.1.1.1, this.1.1.1.2, this.1.1.2, this.1.2, this.2⟩

theorem head_not_ws_of_trimmed {x : List Char} (ht : trim x = x) :
    ∀ c, x.head? = some c → isWs c = false := by
  intro c hc
  rw [← ht] at hc
  exact head?_trim_not x c hc

theorem last_not_ws_of_trimmed {x : List Char} (ht : trim x = x) :
    ∀ c, x.getLast? = some c → isWs c = false := by
  intro c hc
  rw [← ht] at hc
  exact getLast?_trim_not x c hc

theorem bal_zero_of_chars {u : List Char} (h : ∀ c ∈ u, balc c = 0) :
    bal u = 0 := by
  induction u with
  | nil => rfl
  | cons c rest ih =>
    rw [bal_cons, h c (by simp), ih (fun c2 hc2 => h c2 (by simp [hc2]))]
    omega

theorem bal_take_zero_of_chars {u : List Char} (h : ∀ c ∈ u, balc c = 0) (n : ℕ) :
    bal (u.take n) = 0 :=
  bal_zero_of_chars (fun c hc => h c (List.take_subset n u hc))

theorem balc_zero_of_ne {c : Char} (h1 : c ≠ '(') (h2 : c ≠ ')') : balc c = 0 := by
  unfold balc
  rw [if_neg h1, if_neg h2]

theorem fmtDec_eq_pos {d : Dec} (h : 0 ≤ d.m) :
    fmtDec d = fmtDecPos d.m.natAbs d.e := by
  unfold fmtDec
  rw [if_neg (by omega)]

theorem fmtDec_chars {d : Dec} (h : 0 ≤ d.m) :
    ∀ c ∈ fmtDec d, isDigitCh c = true ∨ c = '.' := by
  rw [fmtDec_eq_pos h]
  exact fmtDecPos_chars d.m.natAbs d.e

theorem fmtDec_ne_nil {d : Dec} (h : 0 ≤ d.m) : fmtDec d ≠ [] := by
  rw [fmtDec_eq_pos h]
  exact fmtDecPos_ne_nil d.m.natAbs d.e

theorem digit_or_dot_not_ws {c : Char} (h : isDigitCh c = true ∨ c = '.') :
    isWs c = false := by
  rcases h with h | h
  · exact digit_not_ws h
  · subst h; decide

theorem digit_or_dot_not_special {c : Char} (h : isDigitCh c = true ∨ c = '.') :
    c ≠ '(' ∧ c ≠ ')' ∧ c ≠ ',' ∧ c ≠ ':' := by
  rcases h with h | h
  · exact ⟨digit_ne_char h (by decide), digit_ne_char h (by decide),
      digit_ne_char h (by decide), digit_ne_char h (by decide)⟩
  · subst h
    exact ⟨by decide, by decide, by decide, by decide⟩

theorem serLen_nonroot (d : Dec) : serLen (.num d) false = ':' :: fmtDec d := by
  show (if false = true ∧ d.m = 0 then [] else ':' :: fmtDec d) = ':' :: fmtDec d
  rw [if_neg (by simp)]

theorem serLen_root_zero {d : Dec} (h : d.m = 0) : serLen (.num d) true = [] := by
  show (if true = true ∧ d.m = 0 then [] else ':' :: fmtDec d) = []
  rw [if_pos (by simp [h])]

theorem serLen_root_nonzero {d : Dec} (h : d.m ≠ 0) :
    serLen (.num d) true = ':' :: fmtDec d := by
  show (if true = true ∧ d.m = 0 then [] else ':' :: fmtDec d) = ':' :: fmtDec d
  rw [if_neg (by simp [h])]

theorem serLen_chars {d : Dec} (hm : 0 ≤ d.m) {isRoot : Bool} :
    ∀ c ∈ serLen (.num d) isRoot, c = ':' ∨ isDigitCh c = true ∨ c = '.' := by
  intro c hc
  have hs : serLen (.num d) isRoot =
      if isRoot = true ∧ d.m = 0 then [] else ':' :: fmtDec d := rfl
  rw [hs] at hc
  by_cases h : isRoot = true ∧ d.m = 0
  · rw [if_pos h] at hc
    simp at hc
  · rw [if_neg h] at hc
    rcases List.mem_cons.mp hc with h1 | h1
    · exact Or.inl h1
    · exact Or.inr (fmtDec_chars hm c h1)

theorem idxOf_append_colon {x : List Char} (hx : ':' ∉ x) (r : List Char) :
    idxOf ':' (x ++ ':' :: r) = some x.length := by
  induction x with
  | nil => simp [idxOf]
  | cons a as ih =>
    rw [List.cons_append]
    simp only [idxOf]
    rw [if_neg (fun he => hx (by simp [he]))]
    rw [ih (fun hm => hx (by simp [hm]))]
    rfl

theorem lenClose_orZero (d : Dec) : lenClose (.num d) (jsOrZero (.num d)) = true := by
  rw [jsOrZero_num]
  by_cases h : d.m = 0
  · rw [if_pos h]
    show (decide (|d.m * (10:ℤ)^(0:ℕ) - 0 * (10:ℤ)^d.e| * 10^9 ≤ 10^(d.e + 0))) = true
    rw [h]
    simp
  · rw [if_neg h]
    show (decide (|d.m * (10:ℤ)^d.e - d.m * (10:ℤ)^d.e| * 10^9 ≤ 10^(d.e + d.e))) = true
    simp

theorem lenClose_root_zero {d : Dec} (h : d.m = 0) :
    lenClose (.num d) jzero = true := by
  show (decide (|d.m * (10:ℤ)^(0:ℕ) - 0 * (10:ℤ)^d.e| * 10^9 ≤ 10^(d.e + 0))) = true
  rw [h]
  simp

theorem RTL_map {l : List JTree} {f : JTree → JTree}
    (h : ∀ u ∈ l, RT u (f u) = true) : RTL l (l.map f) = true := by
  induction l with
  | nil => rfl
  | cons u rest ih =>
    rw [List.map_cons]
    show (RT u (f u) && RTL rest (rest.map f)) = true
    rw [h u (by simp), ih (fun v hv => h v (by simp [hv]))]
    rfl

theorem serLen_eq (d : Dec) (isRoot : Bool) :
    serLen (.num d) isRoot = if isRoot = true ∧ d.m = 0 then [] else ':' :: fmtDec d := rfl

theorem goodName_flat {x : List Char} (h : goodName x = true) :
    ∀ c ∈ x, balc c = 0 ∧ c ≠ ',' := by
  intro c hc
  obtain ⟨g1, g2, g3, g4, g5⟩ := (goodName_spec h).2.2 c hc
  exact ⟨balc_zero_of_ne g1 g2, g3⟩

theorem serLen_flat {d : Dec} (hm : 0 ≤ d.m) (isRoot : Bool) :
    ∀ c ∈ serLen (.num d) isRoot, balc c = 0 ∧ c ≠ ',' := by
  intro c hc
  rcases serLen_chars hm c hc with h | h
  · subst h
    exact ⟨rfl, by decide⟩
  · obtain ⟨e1, e2, e3, e4⟩ := digit_or_dot_not_special h
    exact ⟨balc_zero_of_ne e1 e2, e3⟩

theorem goodName_no_colon {x : List Char} (h : goodName x = true) : ':' ∉ x := by
  intro hc
  exact ((goodName_spec h).2.2 ':' hc).2.2.2.1 rfl

theorem bal_take_append (a b : List Char) (n : ℕ) :
    bal ((a ++ b).take n) = bal (a.take n) + bal (b.take (n - a.length)) := by
  rw [List.take_append_eq_append_take, bal_append]

theorem getD_mem {l : List Char} {n : ℕ} (h : n < l.length) (d : Char) : l.getD n d ∈ l := by
  rw [List.getD_eq_getElem l d h]
  exact List.getElem_mem h

theorem PieceOK_flat {w : List Char} (hne : w ≠ []) (ht : trim w = w)
    (h : ∀ c ∈ w, balc c = 0 ∧ c ≠ ',') : PieceOK w := by
  unfold PieceOK
  refine ⟨hne, ht, ?_, ?_, ?_⟩
  · intro n
    exact le_of_eq (bal_take_zero_of_chars (fun c hc => (h c hc).1) n).symm
  · exact bal_zero_of_chars (fun c hc => (h c hc).1)
  · intro m hm hcm
    exact absurd hcm ((h _ (getD_mem hm ' ')).2)

theorem PieceOK_internal {inner tail : List Char}
    (hinb : bal inner = 0) (hinp : ∀ n, 0 ≤ bal (inner.take n))
    (htail : ∀ c ∈ tail, balc c = 0 ∧ c ≠ ',')
    (hlast : ∀ c, ('(' :: (inner ++ ')' :: tail)).getLast? = some c → isWs c = false) :
    PieceOK ('(' :: (inner ++ ')' :: tail)) := by
  have htailb : ∀ p, bal (tail.take p) = 0 :=
    fun p => bal_take_zero_of_chars (fun c hc => (htail c hc).1) p
  have hbalL : balc '(' = 1 := rfl
  have hbalR : balc ')' = -1 := rfl
  unfold PieceOK
  refine ⟨by simp, ?_, ?_, ?_, ?_⟩
  · refine trim_eq_self _ ?_ hlast
    intro c hc
    rw [← (Option.some.inj hc)]
    decide
  · intro n
    cases n with
    | zero =>
      rw [List.take_zero, bal_nil]
    | succ q =>
      rw [List.take_succ_cons, bal_cons, hbalL]
      have h2 := bal_take_append inner (')' :: tail) q
      rw [h2]
      have h3 := hinp q
      cases hq : q - inner.length with
      | zero =>
        rw [List.take_zero, bal_nil]
        omega
      | succ p =>
        rw [List.take_succ_cons, bal_cons, hbalR, htailb p]
        omega
  · rw [bal_cons, bal_append, bal_cons, hbalL, hbalR, hinb,
      bal_zero_of_chars (fun c hc => (htail c hc).1)]
    omega
  · intro m hm hcm
    have hlen : m < inner.length + (tail.length + 1) + 1 := by
      simpa [List.length_cons, List.length_append] using hm
    cases m with
    | zero =>
      rw [List.getD_cons_zero] at hcm
      exact absurd hcm (by decide)
    | succ q =>
      rw [List.getD_cons_succ] at hcm
      rw [List.take_succ_cons, bal_cons, hbalL]
      have h2 := bal_take_append inner (')' :: tail) q
      rcases lt_trichotomy q inner.length with hq | hq | hq
      · have hz : q - inner.length = 0 := by omega
        rw [hz, List.take_zero, bal_nil] at h2
        have h3 := hinp q
        rw [h2]
        omega
      · rw [List.getD_append_right inner (')' :: tail) ' ' q (by omega)] at hcm
        have hz : q - inner.length = 0 := by omega
        rw [hz, List.getD_cons_zero] at hcm
        exact absurd hcm (by decide)
      · rw [List.getD_append_right inner (')' :: tail) ' ' q (by omega)] at hcm
        have hz : q - inner.length = (q - inner.length - 1) + 1 := by omega
        rw [hz, List.getD_cons_succ] at hcm
        have hb : q - inner.length - 1 < tail.length := by omega
        exact absurd hcm ((htail _ (getD_mem hb ' ')).2)

theorem wrap_last_not_ws {d : Dec} (hm : 0 ≤ d.m) (isRoot : Bool)
    (inner lbl : List Char)
    (hlbl : lbl = [] ∨ (lbl ≠ [] ∧ trim lbl = lbl)) :
    ∀ c, ('(' :: (inner ++ ')' :: (lbl ++ serLen (.num d) isRoot))).getLast? = some c →
      isWs c = false := by
  intro c hc
  rw [show ('(' :: (inner ++ ')' :: (lbl ++ serLen (.num d) isRoot))) =
      ['('] ++ (inner ++ ')' :: (lbl ++ serLen (.num d) isRoot)) from rfl] at hc
  rw [List.getLast?_append_of_ne_nil _ (by simp)] at hc
  rw [List.getLast?_append_of_ne_nil _ (by simp)] at hc
  by_cases hroot : isRoot = true ∧ d.m = 0
  · rw [serLen_eq, if_pos hroot, List.append_nil] at hc
    rcases hlbl with h | ⟨h1, h2⟩
    · rw [h] at hc
      have hc2 : ')' = c := Option.some.inj hc
      rw [← hc2]
      decide
    · rw [show (')' :: lbl) = [')'] ++ lbl from rfl,
        List.getLast?_append_of_ne_nil _ h1] at hc
      exact last_not_ws_of_trimmed h2 c hc
  · rw [serLen_eq, if_neg hroot] at hc
    rw [show (')' :: (lbl ++ ':' :: fmtDec d)) = [')'] ++ (lbl ++ ':' :: fmtDec d) from rfl,
      List.getLast?_append_of_ne_nil _ (by simp)] at hc
    rw [List.getLast?_append_of_ne_nil _ (by simp)] at hc
    rw [show (':' :: fmtDec d) = [':'] ++ fmtDec d from rfl,
      List.getLast?_append_of_ne_nil _ (fmtDec_ne_nil hm)] at hc
    exact digit_or_dot_not_ws (fmtDec_chars hm c (List.mem_of_getLast?_eq_some hc))

theorem serList_flat :
    ∀ l : List JTree, (∀ c ∈ l, PieceOK (serSub c false)) →
      bal (serList l) = 0 ∧ ∀ n, 0 ≤ bal ((serList l).take n) := by
  intro l
  induction l with
  | nil =>
    intro _
    refine ⟨rfl, ?_⟩
    intro n
    rw [show serList [] = [] from rfl, List.take_nil, bal_nil]
  | cons c rest ih =>
    intro h
    have hp := h c (by simp)
    cases rest with
    | nil =>
      rw [show serList [c] = serSub c false from rfl]
      exact ⟨hp.2.2.2.1, hp.2.2.1⟩
    | cons c2 rest2 =>
      obtain ⟨ihb, ihp⟩ := ih (fun u hu => h u (List.mem_cons_of_mem c hu))
      rw [show serList (c :: c2 :: rest2) =
        serSub c false ++ ',' :: serList (c2 :: rest2) from rfl]
      constructor
      · rw [bal_append, bal_cons, hp.2.2.2.1, ihb]
        decide
      · intro n
        rw [bal_take_append]
        have hpn := hp.2.2.1 n
        cases hq : n - (serSub c false).length with
        | zero =>
          rw [List.take_zero, bal_nil]
          omega
        | succ p2 =>
          rw [List.take_succ_cons, bal_cons]
          have h2 := ihp p2
          have hbc : balc ',' = 0 := rfl
          omega

theorem splitTopLevel_serList :
    ∀ l : List JTree, (∀ c ∈ l, PieceOK (serSub c false)) →
      splitTopLevel (serList l) = l.map (fun c => serSub c false) := by
  intro l
  induction l with
  | nil => intro _; rfl
  | cons c rest ih =>
    intro h
    have hp := h c (by simp)
    have hnc : ∀ m, m < (serSub c false).length →
        (serSub c false).getD m ' ' = ',' → (0 : ℤ) + bal ((serSub c false).take m) ≠ 0 := by
      intro m h1 h2
      have h3 := hp.2.2.2.2 m h1 h2
      omega
    cases rest with
    | nil =>
      have h3 := splitAux_append (serSub c false) 0 [] [] hnc
      rw [List.append_nil, hp.2.2.2.1, List.nil_append] at h3
      rw [show ((0 : ℤ) + 0) = 0 from rfl] at h3
      have h4 : splitAux [] (0 : ℤ) (serSub c false) = pushT (serSub c false) := rfl
      rw [h4] at h3
      show splitAux (serList [c]) 0 [] = _
      rw [show serList [c] = serSub c false from rfl, h3]
      unfold pushT
      rw [hp.2.1, if_neg (fun hco => hp.1 (by simpa using hco))]
      rfl
    | cons c2 rest2 =>
      have h3 := splitAux_append (serSub c false) 0 [] (',' :: serList (c2 :: rest2)) hnc
      rw [hp.2.2.2.1, List.nil_append] at h3
      rw [show ((0 : ℤ) + 0) = 0 from rfl] at h3
      have h5 : splitAux (',' :: serList (c2 :: rest2)) (0 : ℤ) (serSub c false) =
          pushT (serSub c false) ++ splitAux (serList (c2 :: rest2)) 0 [] := by
        simp only [splitAux]
        rw [if_neg (by decide), if_neg (by decide)]
        simp
      show splitAux (serList (c :: c2 :: rest2)) 0 [] = _
      rw [show serList (c :: c2 :: rest2) =
        serSub c false ++ ',' :: serList (c2 :: rest2) from rfl]
      rw [h3, h5]
      have h6 := ih (fun u hu => h u (List.mem_cons_of_mem c hu))
      rw [show splitTopLevel (serList (c2 :: rest2)) =
        splitAux (serList (c2 :: rest2)) 0 [] from rfl] at h6
      rw [h6]
      unfold pushT
      rw [hp.2.1, if_neg (fun hco => hp.1 (by simpa using hco))]
      rfl

theorem WFserL_mem : ∀ {l : List JTree}, WFserL l = true → ∀ u ∈ l, WFser u = true := by
  intro l
  induction l with
  | nil =>
    intro _ u hu
    simp at hu
  | cons t ts ih =>
    intro h u hu
    have h2 : (WFser t && WFserL ts) = true := h
    rw [Bool.and_eq_true] at h2
    rcases List.mem_cons.mp hu with h3 | h3
    · rw [h3]
      exact h2.1
    · exact ih h2.2 u h3

theorem RT_leaf_eq (nm nm' : Option (List Char)) (len len' : JSNum) :
    RT (.node [] nm len) (.node [] nm' len') = (lenClose len len' && decide (nm' = nm)) := rfl

theorem RT_internal_eq (c : JTree) (cs : List JTree) (c' : JTree) (cs' : List JTree)
    (nm nm' : Option (List Char)) (len len' : JSNum) :
    RT (.node (c :: cs) nm len) (.node (c' :: cs') nm' len') =
      (lenClose len len' &&
        ((decide (nm' = nm) || (decide (nm = none) && decide (nm' = some internalLabel))) &&
          RTL (c :: cs) (c' :: cs'))) := rfl

theorem orInternal_ne {x : List Char} (h : x ≠ []) : orInternal x = x := by
  unfold orInternal
  rw [if_neg (fun hco => h (by simpa using hco))]

theorem idxOf_not_mem {c : Char} {l : List Char} (h : c ∉ l) : idxOf c l = none := by
  rw [idxOf_spec, if_neg h]

theorem drop_name_colon (x r : List Char) :
    (x ++ ':' :: r).drop (x.length + 1) = r := by
  rw [← List.drop_drop 1 x.length (x ++ ':' :: r), List.drop_left]
  rfl

theorem parseNode_wrap {inner tail : List Char}
    (hinb : bal inner = 0) (hinp : ∀ n, 0 ≤ bal (inner.take n))
    (ht : trim ('(' :: (inner ++ ')' :: tail)) = '(' :: (inner ++ ')' :: tail)) :
    parseNode ('(' :: (inner ++ ')' :: tail)) =
      internalFinish ((splitTopLevel inner).map parseNode) tail := by
  have hfc : findClose (trim ('(' :: (inner ++ ')' :: tail))) = some (inner.length + 1) := by
    rw [ht]
    exact findClose_wrap inner tail hinp hinb
  have hh : (trim ('(' :: (inner ++ ')' :: tail))).head? = some '(' := by
    rw [ht]
    rfl
  rw [parseNode_internal hh hfc, ht]
  have e1 : (('(' :: (inner ++ ')' :: tail)).take (inner.length + 1)).drop 1 = inner := by
    rw [List.take_succ_cons, List.take_left]
    simp
  have e2 : ('(' :: (inner ++ ')' :: tail)).drop (inner.length + 1 + 1) = tail := by
    rw [List.drop_succ_cons, ← List.drop_drop 1 inner.length _, List.drop_left]
    simp
  rw [e1, e2]

theorem serSub_ok : ∀ (n : ℕ) (t : JTree), sizeOf t ≤ n → WFser t = true →
    ∀ isRoot, PieceOK (serSub t isRoot) ∧ RT t (parseNode (serSub t isRoot)) = true := by
  intro n
  induction n with
  | zero =>
    intro t hsz hwf isRoot
    obtain ⟨cs, nm, len⟩ := t
    have h1 : sizeOf (JTree.node cs nm len) = 1 + sizeOf cs + sizeOf nm + sizeOf len := by
      simp
    rw [h1] at hsz
    exact absurd hsz (by omega)
  | succ n ih =>
    intro t hsz hwf isRoot
    obtain ⟨cs, nm, len⟩ := t
    cases len with
    | nan =>
      have hwf2 : (false && (match cs with
          | [] => (match nm with | some x => goodName x | none => false)
          | _ :: _ =>
            (match nm with | some x => goodName x | none => true) && WFserL cs)) = true := hwf
      rw [Bool.false_and] at hwf2
      exact Bool.noConfusion hwf2
    | inf =>
      have hwf2 : (false && (match cs with
          | [] => (match nm with | some x => goodName x | none => false)
          | _ :: _ =>
            (match nm with | some x => goodName x | none => true) && WFserL cs)) = true := hwf
      rw [Bool.false_and] at hwf2
      exact Bool.noConfusion hwf2
    | ninf =>
      have hwf2 : (false && (match cs with
          | [] => (match nm with | some x => goodName x | none => false)
          | _ :: _ =>
            (match nm with | some x => goodName x | none => true) && WFserL cs)) = true := hwf
      rw [Bool.false_and] at hwf2
      exact Bool.noConfusion hwf2
    | num d =>
      cases cs with
      | nil =>
        cases nm with
        | none =>
          have hwf2 : (decide (0 ≤ d.m) && false) = true := hwf
          rw [Bool.and_false] at hwf2
          exact Bool.noConfusion hwf2
        | some x =>
          have hwf2 : (decide (0 ≤ d.m) && goodName x) = true := hwf
          rw [Bool.and_eq_true, decide_eq_true_eq] at hwf2
          obtain ⟨hm, hgx⟩ := hwf2
          obtain ⟨hx0, hxt, hx3⟩ := goodName_spec hgx
          have hser : serSub (JTree.node [] (some x) (JSNum.num d)) isRoot =
              x ++ serLen (JSNum.num d) isRoot := rfl
          have hflat : ∀ c ∈ x ++ serLen (JSNum.num d) isRoot, balc c = 0 ∧ c ≠ ',' := by
            intro c hc
            rcases List.mem_append.mp hc with h | h
            · exact goodName_flat hgx c h
            · exact serLen_flat hm isRoot c h
          have hhw : ∀ c, (x ++ serLen (JSNum.num d) isRoot).head? = some c →
              isWs c = false := by
            intro c hc
            cases x with
            | nil => exact absurd rfl hx0
            | cons a as =>
              rw [List.cons_append, List.head?_cons] at hc
              rw [← (Option.some.inj hc)]
              exact head_not_ws_of_trimmed hxt a (by rw [List.head?_cons])
          have hlw : ∀ c, (x ++ serLen (JSNum.num d) isRoot).getLast? = some c →
              isWs c = false := by
            intro c hc
            by_cases hroot : isRoot = true ∧ d.m = 0
            · rw [serLen_eq, if_pos hroot, List.append_nil] at hc
              exact last_not_ws_of_trimmed hxt c hc
            · rw [serLen_eq, if_neg hroot] at hc
              rw [List.getLast?_append_of_ne_nil _ (by simp)] at hc
              rw [show (':' :: fmtDec d) = [':'] ++ fmtDec d from rfl,
                List.getLast?_append_of_ne_nil _ (fmtDec_ne_nil hm)] at hc
              exact digit_or_dot_not_ws (fmtDec_chars hm c (List.mem_of_getLast?_eq_some hc))
          have hne : x ++ serLen (JSNum.num d) isRoot ≠ [] := by
            intro hco
            exact hx0 (List.append_eq_nil.mp hco).1
          have htw : trim (x ++ serLen (JSNum.num d) isRoot) =
              x ++ serLen (JSNum.num d) isRoot := trim_eq_self _ hhw hlw
          have hpiece : PieceOK (x ++ serLen (JSNum.num d) isRoot) :=
            PieceOK_flat hne htw hflat
          refine ⟨by rw [hser]; exact hpiece, ?_⟩
          have hhead : ¬(trim (x ++ serLen (JSNum.num d) isRoot)).head? = some '(' := by
            rw [htw]
            intro hco
            cases x with
            | nil => exact absurd rfl hx0
            | cons a as =>
              rw [List.cons_append, List.head?_cons] at hco
              exact (hx3 a (by simp)).1 (Option.some.inj hco)
          have hpn := parseNode_leaf hhead
          rw [htw] at hpn
          by_cases hroot : isRoot = true ∧ d.m = 0
          · have hw : serLen (JSNum.num d) isRoot = [] := by rw [serLen_eq, if_pos hroot]
            rw [hser, hw, List.append_nil]
            rw [hw, List.append_nil] at hpn
            rw [leafFinish_noColon (idxOf_not_mem (goodName_no_colon hgx))] at hpn
            rw [hpn, hxt, RT_leaf_eq, lenClose_root_zero hroot.2]
            simp
          · have hw : serLen (JSNum.num d) isRoot = ':' :: fmtDec d := by
              rw [serLen_eq, if_neg hroot]
            rw [hser, hw]
            rw [hw] at hpn
            rw [leafFinish_pos (idxOf_append_colon (goodName_no_colon hgx) _)
              (List.length_pos.mpr hx0)] at hpn
            rw [List.take_left, hxt, drop_name_colon, parseFloat_fmtDec d hm] at hpn
            rw [hpn, RT_leaf_eq]
            rw [show (JSNum.num (⟨d.m, d.e⟩ : Dec)) = JSNum.num d from rfl]
            rw [lenClose_orZero d]
            simp
      | cons c0 cs2 =>
        cases nm with
        | some x =>
          have hwf2 : (decide (0 ≤ d.m) && (goodName x && WFserL (c0 :: cs2))) = true := hwf
          simp only [Bool.and_eq_true, decide_eq_true_eq] at hwf2
          obtain ⟨hm, hgx, hwl⟩ := hwf2
          have hchild : ∀ u ∈ c0 :: cs2,
              PieceOK (serSub u false) ∧ RT u (parseNode (serSub u false)) = true := by
            intro u hu
            have h1 : sizeOf u < sizeOf (c0 :: cs2) := List.sizeOf_lt_of_mem hu
            have h2 : sizeOf (JTree.node (c0 :: cs2) (some x) (JSNum.num d)) =
                1 + sizeOf (c0 :: cs2) + sizeOf (some x) + sizeOf (JSNum.num d) := by
              simp
            rw [h2] at hsz
            exact ih u (by omega) (WFserL_mem hwl u hu) false
          have hpieces : ∀ u ∈ c0 :: cs2, PieceOK (serSub u false) :=
            fun u hu => (hchild u hu).1
          obtain ⟨hinb, hinp⟩ := serList_flat (c0 :: cs2) hpieces
          have hsplitL := splitTopLevel_serList (c0 :: cs2) hpieces
          have hRTL : RTL (c0 :: cs2)
              ((splitTopLevel (serList (c0 :: cs2))).map parseNode) = true := by
            rw [hsplitL, List.map_map]
            exact RTL_map (fun u hu => (hchild u hu).2)
          rw [hsplitL, List.map_map, List.map_cons] at hRTL
          obtain ⟨hx0, hxt, hx3⟩ := goodName_spec hgx
          have hser : serSub (JTree.node (c0 :: cs2) (some x) (JSNum.num d)) isRoot =
              '(' :: (serList (c0 :: cs2) ++ ')' ::
                (x ++ serLen (JSNum.num d) isRoot)) := rfl
          have htail : ∀ c ∈ x ++ serLen (JSNum.num d) isRoot, balc c = 0 ∧ c ≠ ',' := by
            intro c hc
            rcases List.mem_append.mp hc with h | h
            · exact goodName_flat hgx c h
            · exact serLen_flat hm isRoot c h
          have hlast := wrap_last_not_ws hm isRoot (serList (c0 :: cs2)) x (Or.inr ⟨hx0, hxt⟩)
          have hpiece := PieceOK_internal hinb hinp htail hlast
          have htw := hpiece.2.1
          refine ⟨by rw [hser]; exact hpiece, ?_⟩
          have hpn := parseNode_wrap hinb hinp htw
          rw [hsplitL, List.map_map, List.map_cons] at hpn
          by_cases hroot : isRoot = true ∧ d.m = 0
          · have hw : serLen (JSNum.num d) isRoot = [] := by rw [serLen_eq, if_pos hroot]
            rw [hser, hw, List.append_nil]
            rw [hw, List.append_nil] at hpn
            rw [internalFinish_noColon _ (idxOf_not_mem (goodName_no_colon hgx))] at hpn
            rw [hxt, orInternal_ne hx0] at hpn
            rw [hpn, RT_internal_eq, lenClose_root_zero hroot.2, hRTL]
            simp
          · have hw : serLen (JSNum.num d) isRoot = ':' :: fmtDec d := by
              rw [serLen_eq, if_neg hroot]
            rw [hser, hw]
            rw [hw] at hpn
            rw [internalFinish_pos _ (idxOf_append_colon (goodName_no_colon hgx) _)
              (List.length_pos.mpr hx0)] at hpn
            rw [List.take_left, hxt, orInternal_ne hx0, drop_name_colon,
              parseFloat_fmtDec d hm] at hpn
            rw [hpn]
            rw [show (JSNum.num (⟨d.m, d.e⟩ : Dec)) = JSNum.num d from rfl]
            rw [RT_internal_eq, lenClose_orZero d, hRTL]
            simp
        | none =>
          have hwf2 : (decide (0 ≤ d.m) && (true && WFserL (c0 :: cs2))) = true := hwf
          simp only [Bool.and_eq_true, decide_eq_true_eq] at hwf2
          obtain ⟨hm, h_, hwl⟩ := hwf2
          have hchild : ∀ u ∈ c0 :: cs2,
              PieceOK (serSub u false) ∧ RT u (parseNode (serSub u false)) = true := by
            intro u hu
            have h1 : sizeOf u < sizeOf (c0 :: cs2) := List.sizeOf_lt_of_mem hu
            have h2 : sizeOf (JTree.node (c0 :: cs2) none (JSNum.num d)) =
                1 + sizeOf (c0 :: cs2) + sizeOf (none : Option (List Char)) + sizeOf (JSNum.num d) := by
              simp
            rw [h2] at hsz
            exact ih u (by omega) (WFserL_mem hwl u hu) false
          have hpieces : ∀ u ∈ c0 :: cs2, PieceOK (serSub u false) :=
            fun u hu => (hchild u hu).1
          obtain ⟨hinb, hinp⟩ := serList_flat (c0 :: cs2) hpieces
          have hsplitL := splitTopLevel_serList (c0 :: cs2) hpieces
          have hRTL : RTL (c0 :: cs2)
              ((splitTopLevel (serList (c0 :: cs2))).map parseNode) = true := by
            rw [hsplitL, List.map_map]
            exact RTL_map (fun u hu => (hchild u hu).2)
          rw [hsplitL, List.map_map, List.map_cons] at hRTL
          have hser : serSub (JTree.node (c0 :: cs2) none (JSNum.num d)) isRoot =
              '(' :: (serList (c0 :: cs2) ++ ')' :: serLen (JSNum.num d) isRoot) := rfl
          have htail : ∀ c ∈ serLen (JSNum.num d) isRoot, balc c = 0 ∧ c ≠ ',' :=
            serLen_flat hm isRoot
          have hlast := wrap_last_not_ws hm isRoot (serList (c0 :: cs2)) [] (Or.inl rfl)
          have hpiece := PieceOK_internal hinb hinp htail hlast
          have htw := hpiece.2.1
          refine ⟨by rw [hser]; exact hpiece, ?_⟩
          have hpn := parseNode_wrap hinb hinp htw
          rw [hsplitL, List.map_map, List.map_cons] at hpn
          by_cases hroot : isRoot = true ∧ d.m = 0
          · have hw : serLen (JSNum.num d) isRoot = [] := by rw [serLen_eq, if_pos hroot]
            rw [hser, hw]
            rw [hw] at hpn
            rw [internalFinish_noColon _
              (show idxOf ':' ([] : List Char) = none from rfl)] at hpn
            rw [show orInternal (trim ([] : List Char)) = internalLabel from rfl] at hpn
            rw [hpn, RT_internal_eq, lenClose_root_zero hroot.2, hRTL]
            simp
          · have hw : serLen (JSNum.num d) isRoot = ':' :: fmtDec d := by
              rw [serLen_eq, if_neg hroot]
            rw [hser, hw]
            rw [hw] at hpn
            rw [internalFinish_zero _
              (show idxOf ':' (':' :: fmtDec d) = some 0 from rfl) (by omega)] at hpn
            rw [show ((':' :: fmtDec d).drop 1) = fmtDec d from rfl,
              parseFloat_fmtDec d hm] at hpn
            rw [hpn]
            rw [show (JSNum.num (⟨d.m, d.e⟩ : Dec)) = JSNum.num d from rfl]
            rw [RT_internal_eq, lenClose_orZero d, hRTL]
            simp

/-- C1 counterexample to the claim as stated: the round-trip law fails on a
tree the §4.4 writer can serialize whose leaf name carries leading
whitespace.  The writer emits the name verbatim, but `parseNewick` trims
every name, so the tree with leaves `" A"` and `"B"` comes back with leaf
set `["A", "B"] ≠ [" A", "B"]`. -/
theorem c1_roundtrip_counterexample :
    leafNames (parseNewick (serialize
      (JTree.node [JTree.node [] (some [' ', 'A']) (.num ⟨1, 0⟩),
        JTree.node [] (some ['B']) (.num ⟨2, 0⟩)] none (.num ⟨0, 0⟩)))) ≠
    leafNames
      (JTree.node [JTree.node [] (some [' ', 'A']) (.num ⟨1, 0⟩),
        JTree.node [] (some ['B']) (.num ⟨2, 0⟩)] none (.num ⟨0, 0⟩)) := by
  decide

/-- C1 (amended): restricted to the writer's validated domain `WFser` — every
branch length a finite nonnegative decimal, every leaf name nonempty,
whitespace-trimmed and free of the delimiters `( ) , : ;`, every internal
label absent or likewise good — the round-trip law holds: parsing the
serialized text returns a tree with the same topology, identical leaf
names, internal labels preserved up to the placeholder substitution on
unnamed internal nodes, and branch lengths within `1e-9` (the relation
`RT`). -/
theorem c1_roundtrip_amended (t : JTree) (h : WFser t = true) :
    RT t (parseNewick (serialize t)) = true := by
  have hmain := serSub_ok (sizeOf t) t (le_refl _) h true
  have htw := hmain.1.2.1
  have hrt := hmain.2
  have hs : stripSemi (serSub t true ++ [';']) = serSub t true := by
    unfold stripSemi
    rw [if_pos (List.getLast?_concat _)]
    exact List.dropLast_concat
  show RT t (parseNode (trim (stripSemi (serSub t true ++ [';'])))) = true
  rw [hs, htw]
  exact hrt

/-- C1 witness: the amended round-trip law applied at the concrete
serializable two-leaf tree `(A:1,B:2.5)` with root length `0`. -/
theorem c1_roundtrip_amended_witness :
    WFser (JTree.node [JTree.node [] (some ['A']) (.num ⟨1, 0⟩),
      JTree.node [] (some ['B']) (.num ⟨25, 1⟩)] none (.num ⟨0, 0⟩)) = true ∧
    RT (JTree.node [JTree.node [] (some ['A']) (.num ⟨1, 0⟩),
        JTree.node [] (some ['B']) (.num ⟨25, 1⟩)] none (.num ⟨0, 0⟩))
      (parseNewick (serialize
        (JTree.node [JTree.node [] (some ['A']) (.num ⟨1, 0⟩),
          JTree.node [] (some ['B']) (.num ⟨25, 1⟩)] none (.num ⟨0, 0⟩)))) = true :=
  ⟨by decide, c1_roundtrip_amended _ (by decide)⟩
